import Mathlib

/-!
# Verification of the commit-retrieval pipeline of `github-query`

A shallow embedding, in Lean 4, of the pure core of the `github-query`
repository (the `titles.js` CLI): commit-title categorization
(`categorizeCommit`), statistics aggregation (`generateStats`),
relative-date parsing (`parseRelativeDate`), overall date validation
(`validateDate`), and Link-header pagination parsing.

The JavaScript sources embedded here are the function definitions in
`tests/cli.test.js` (the unit-tested versions of `parseRelativeDate`,
`categorizeCommit`, `generateStats` at lines 313-402, and the Link-header
extraction at lines 1015-1023) together with the `titles.js` listing kept
in `README.md` (`validateDate`, lines 1735-1760 of the listing file).

Modelling conventions:
* JavaScript strings are `String` / `List Char`; `null` / `undefined`
  arguments are `Option.none`.
* JavaScript numbers are unbounded `Int` / `Nat`.  Integer arithmetic on
  millisecond timestamps and counts is exact in IEEE binary64 below 2^53,
  and every branch that could exceed that (huge relative-date counts)
  lands beyond the `Date` range where `TimeClip` yields Invalid Date
  either way; the one genuinely inexact operation, the decimal-average
  division, is modelled by explicit binary64 rounding in `flDivSig` /
  `toFixed1` below.
* A JavaScript object used as a string-keyed counter map is an insertion
  ordered association list; `bump` is the statement
  `obj[k] = (obj[k] || 0) + 1` for the maps whose keys cannot name an
  `Object.prototype` member, and `bumpAuthor` adds the prototype-chain
  behavior (inherited truthy members, swallowed `__proto__` writes) for
  `stats.byAuthor`, whose keys are arbitrary author handles.
* `new Date(year, month, day)` is modelled by ECMA-262's `MakeFullYear`
  (two-digit years map to 1900-1999) and `MakeDay` arithmetic
  (`dayFromYear`, `monthStart`, `makeDay`) plus `TimeClip`, over a local
  clock with a fixed UTC offset `tz` (DST is out of scope: the code under
  test fixes the clock), packaged in a `NowCtx` mirroring what the
  getters `getFullYear`/`getMonth`/`getDate`/`getTime` return.
-/

/-! ## Character and string helpers (JS `toLowerCase`, `trim`, `\s`, `\d`) -/

/-- JS `String.prototype.toLowerCase` as far as this program can observe
it: code points 65-90 (`A`-`Z`) shift down to 97-122 (`a`-`z`), and
U+212A KELVIN SIGN folds to `k`.  The full Unicode mapping touches many
more characters, but every function in this file only compares the
folded text against ASCII digits, the JS whitespace class, and the
letters of the fixed keywords (`today`, `yesterday`,
`day|week|month|year`, `s`, `ago`, and the commit-type tokens); apart
from `A`-`Z` and U+212A no character lowercases into any of those sets
(the one other mapping into ASCII, U+0130 → `i` + U+0307, produces
letters outside every comparison set), so fixing all other characters is
observationally equivalent. -/
def jsToLower (c : Char) : Char :=
  if 65 ≤ c.toNat ∧ c.toNat ≤ 90 then Char.ofNat (c.toNat + 32)
  else if c.toNat = 0x212A then 'k'
  else c

/-- The JS whitespace class `\s` — also exactly the set
`String.prototype.trim` strips (ECMA-262 WhiteSpace ∪ LineTerminator):
tab, LF, VT, FF, CR, space, NBSP, OGHAM SPACE MARK, U+2000-U+200A, LINE
and PARAGRAPH SEPARATOR, NARROW NBSP, MEDIUM MATHEMATICAL SPACE,
IDEOGRAPHIC SPACE, and ZWNBSP. -/
def isJsWs (c : Char) : Bool :=
  c.toNat = 0x9 || c.toNat = 0xA || c.toNat = 0xB || c.toNat = 0xC ||
    c.toNat = 0xD || c.toNat = 0x20 || c.toNat = 0xA0 || c.toNat = 0x1680 ||
    (0x2000 ≤ c.toNat && c.toNat ≤ 0x200A) || c.toNat = 0x2028 ||
    c.toNat = 0x2029 || c.toNat = 0x202F || c.toNat = 0x205F ||
    c.toNat = 0x3000 || c.toNat = 0xFEFF

/-- JS `String.prototype.trim`: strip leading and trailing whitespace. -/
def jsTrim (l : List Char) : List Char :=
  ((l.dropWhile isJsWs).reverse.dropWhile isJsWs).reverse

/-- Lowercase then trim a JS string, as `dateStr.toLowerCase().trim()`. -/
def jsCanon (s : String) : List Char :=
  jsTrim (s.data.map jsToLower)

/-! ## `categorizeCommit` (tests/cli.test.js lines 344-364)

```js
function categorizeCommit(title) {
  if (!title || typeof title !== 'string') return "other";
  const lower = title.toLowerCase();
  if (lower.match(/^feat(\([^)]*\))?:/)) return "feature";
  if (lower.match(/^fix(\([^)]*\))?:/)) return "bugfix";
  if (lower.match(/^docs(\([^)]*\))?:/)) return "documentation";
  if (lower.match(/^style(\([^)]*\))?:/)) return "style";
  if (lower.match(/^refactor(\([^)]*\))?:/)) return "refactor";
  if (lower.match(/^test(\([^)]*\))?:/)) return "test";
  if (lower.match(/^chore(\([^)]*\))?:/)) return "chore";
  if (lower.match(/^perf(\([^)]*\))?:/)) return "performance";
  if (lower.match(/^ci(\([^)]*\))?:/)) return "ci";
  if (lower.match(/^build(\([^)]*\))?:/)) return "build";
  if (lower.match(/^revert(\([^)]*\))?:/)) return "revert";
  if (lower.startsWith("merge")) return "merge";
  return "other";
}
```

Each guard is either the anchored regex `^tk(\([^)]*\))?:` — the string
starts with `tk:`, or with `tk(`, a scope free of `)`, then `):` — or the
bare prefix test `startsWith("merge")`.  The rules are represented as data
(`CommitRule`) so that reordering them is a statable operation. -/

/-- One categorization rule of `categorizeCommit`: an anchored
conventional-commit prefix test `^tk(\([^)]*\))?:`, or the bare
`startsWith("merge")` test. -/
inductive CommitRule where
  | typedPrefix (token : List Char) (label : String)
  | mergePrefix
deriving DecidableEq, Repr

/-- The label a rule returns when it fires. -/
def ruleLabel : CommitRule → String
  | .typedPrefix _ lbl => lbl
  | .mergePrefix => "merge"

/-- After `tk(` has been consumed: `[^)]*\):` — scan to the first `)` and
require `:` right after it (the regex class `[^)]` cannot cross a `)`, so
greedy matching stops at the first one). -/
def scopeClose : List Char → Bool
  | [] => false
  | c :: rest => if c = ')' then decide (rest.head? = some ':') else scopeClose rest

/-- Whether one rule fires on an (already lowercased) title. -/
def ruleMatches : CommitRule → List Char → Bool
  | .typedPrefix tk _, s =>
      (tk ++ [':']).isPrefixOf s ||
        ((tk ++ ['(']).isPrefixOf s && scopeClose (s.drop (tk.length + 1)))
  | .mergePrefix, s => ("merge".data).isPrefixOf s

/-- The twelve guards of `categorizeCommit`, in source order. -/
def commitRules : List CommitRule :=
  [ .typedPrefix "feat".data "feature"
  , .typedPrefix "fix".data "bugfix"
  , .typedPrefix "docs".data "documentation"
  , .typedPrefix "style".data "style"
  , .typedPrefix "refactor".data "refactor"
  , .typedPrefix "test".data "test"
  , .typedPrefix "chore".data "chore"
  , .typedPrefix "perf".data "performance"
  , .typedPrefix "ci".data "ci"
  , .typedPrefix "build".data "build"
  , .typedPrefix "revert".data "revert"
  , .mergePrefix ]

/-- Function `categorizeCommit` with an explicit rule order: the first rule that
fires wins, the fall-through result is `"other"`.  A `none` title stands
for JS `null`/`undefined`; the guard `!title` also rejects `""`. -/
def categorizeWith (rules : List CommitRule) (title : Option String) : String :=
  match title with
  | none => "other"
  | some t =>
      if t = "" then "other"
      else
        match rules.find? (fun r => ruleMatches r (t.data.map jsToLower)) with
        | some r => ruleLabel r
        | none => "other"

/-- Function `categorizeCommit` from tests/cli.test.js, lines 344-364. -/
def categorizeCommit (title : Option String) : String :=
  categorizeWith commitRules title

/-- The thirteen category labels of the contract. -/
def categoryLabels : List String :=
  [ "feature", "bugfix", "documentation", "style", "refactor", "test"
  , "chore", "performance", "ci", "build", "revert", "merge", "other" ]

/-! ### Mutual exclusivity of the categorization rules -/

/-- The literal token a rule anchors on: `tk` for a typed rule, `merge`
for the merge rule.  Whenever a rule fires, its token is a prefix of the
title. -/
def ruleToken : CommitRule → List Char
  | .typedPrefix tk _ => tk
  | .mergePrefix => "merge".data

/-! ## `generateStats` (tests/cli.test.js lines 366-402)

```js
function generateStats(items) {
  const stats = { total: items.length, byType: {}, byAuthor: {}, byDate: {}, averagePerDay: 0 };
  const dateCounts = {};
  for (const item of items) {
    if (!item.title) continue;
    const type = categorizeCommit(item.title);
    stats.byType[type] = (stats.byType[type] || 0) + 1;
    const author = item.author_login || "Unknown";
    stats.byAuthor[author] = (stats.byAuthor[author] || 0) + 1;
    if (item.date) {
      const date = new Date(item.date).toISOString().split("T")[0];
      dateCounts[date] = (dateCounts[date] || 0) + 1;
    }
  }
  const uniqueDays = Object.keys(dateCounts).length;
  stats.averagePerDay = uniqueDays > 0 ? (stats.total / uniqueDays).toFixed(1) : 0;
  stats.byDate = dateCounts;
  return stats;
}
```

A commit record carries an optional title, an optional author handle and
an optional timestamp.  The `date` field of the raw record is an ISO
timestamp string; it is modelled by its instant, a count of UTC
milliseconds, with `none` for an absent (or empty, hence falsy) string.
The per-day key `new Date(d).toISOString().split("T")[0]` — the UTC
calendar date of the instant — is modelled by the UTC day number
`ms / 86400000`, which is in bijection with the `YYYY-MM-DD` key strings
for the representable range. -/

/-- A raw commit record as `generateStats` consumes it. -/
structure CommitItem where
  title : Option String
  author_login : Option String
  date : Option Nat
deriving DecidableEq, Repr

/-- JS truthiness of `item.title`: present and non-empty. -/
def hasTitle (i : CommitItem) : Bool :=
  match i.title with
  | none => false
  | some t => !(t == "")

/-- The statement `item.author_login || "Unknown"`: the handle, or the literal label
`"Unknown"` when the handle is absent or empty (both are falsy). -/
def authorKey (i : CommitItem) : String :=
  match i.author_login with
  | none => "Unknown"
  | some a => if a = "" then "Unknown" else a

/-- UTC calendar-day key of an instant, standing for the
`toISOString().split("T")[0]` date string. -/
def utcDayKey (ms : Nat) : Nat := ms / 86400000

/-- The statement `obj[k] = (obj[k] || 0) + 1` on a JS object as an insertion-ordered
association list: bump an existing key in place, or append the key with
count 1.  This clean-map model serves `stats.byType` and `dateCounts`,
whose keys — the thirteen category labels and the day keys — never name
an inherited `Object.prototype` member, so the prototype-chain behavior
modelled in `bumpAuthor` below cannot trigger on them. -/
def bump {κ : Type} [DecidableEq κ] (k : κ) : List (κ × Nat) → List (κ × Nat)
  | [] => [(k, 1)]
  | (k', n) :: rest => if k' = k then (k', n + 1) :: rest else (k', n) :: bump k rest

/-- The read `obj[k] || 0`: the stored count, zero when the key is absent. -/
def getCount {κ : Type} [DecidableEq κ] (k : κ) : List (κ × Nat) → Nat
  | [] => 0
  | (k', n) :: rest => if k' = k then n else getCount k rest

/-- A JS value that is either a number or a string: the type of
`stats.averagePerDay`, and of the values the `byAuthor` object can come
to hold. -/
inductive JsValue where
  | num (n : Nat)
  | str (s : String)
deriving DecidableEq, Repr

/-- The own property names of `Object.prototype`.  An object literal `{}`
inherits these, so reading such a key on it yields the inherited member —
a truthy function, or for `__proto__` the (truthy) prototype object —
rather than `undefined`. -/
def protoProps : List String :=
  [ "constructor", "hasOwnProperty", "isPrototypeOf", "propertyIsEnumerable"
  , "toLocaleString", "toString", "valueOf", "__defineGetter__"
  , "__defineSetter__", "__lookupGetter__", "__lookupSetter__", "__proto__" ]

/-- The string an inherited `Object.prototype` member coerces to when
`(obj[k] || 0) + 1` turns into string concatenation.  The exact text is
engine-defined (V8 renders a function as
`function toString() \x7b [native code] \x7d`); no theorem below depends
on the text, only on its being a string. -/
def protoString (k : String) : String :=
  "function " ++ k ++ "() \x7b [native code] \x7d"

/-- Truthiness of a stored JS value: the number `0` and the empty string
are falsy, everything else is truthy. -/
def truthyV : JsValue → Bool
  | .num n => n != 0
  | .str s => s != ""

/-- One step of `x + 1` on a JS value: numeric increment, or string
concatenation once a string got stored. -/
def plusOne : JsValue → JsValue
  | .num n => .num (n + 1)
  | .str s => .str (s ++ "1")

/-- Update of an own property by `obj[k] = (obj[k] || 0) + 1`: an
existing own key updates in place from its stored value; an absent key
that names an inherited `Object.prototype` member first reads that
(truthy) member, so `+ 1` concatenates and stores a string; any other
absent key stores the number 1. -/
def bumpAuthorOwn (k : String) : List (String × JsValue) → List (String × JsValue)
  | [] => [(k, if k ∈ protoProps then .str (protoString k ++ "1") else .num 1)]
  | (k', v) :: rest =>
      if k' = k then (k', if truthyV v then plusOne v else .num 1) :: rest
      else (k', v) :: bumpAuthorOwn k rest

/-- The statement `stats.byAuthor[author] = (stats.byAuthor[author] || 0) + 1`
with `Object.prototype` in the object's chain.  Assigning `__proto__`
invokes the inherited accessor, which discards a non-object value — no
own property is ever created, the object is unchanged; every other key
follows `bumpAuthorOwn`. -/
def bumpAuthor (k : String) (h : List (String × JsValue)) : List (String × JsValue) :=
  if k = "__proto__" then h else bumpAuthorOwn k h

/-- The numeric reading of `obj[k] || 0`: the stored count, zero when the
key is absent or holds a non-number. -/
def getCountA (k : String) : List (String × JsValue) → Nat
  | [] => 0
  | (k', v) :: rest =>
      if k' = k then (match v with | .num n => n | .str _ => 0)
      else getCountA k rest

/-- The loop body of `generateStats`: records without a truthy title are
skipped entirely; records without a date are skipped for the per-day
counter only. -/
structure StatsAcc where
  byType : List (String × Nat)
  byAuthor : List (String × JsValue)
  dateCounts : List (Nat × Nat)
deriving Repr

def statsStep (acc : StatsAcc) (item : CommitItem) : StatsAcc :=
  if hasTitle item then
    { byType := bump (categorizeCommit item.title) acc.byType
    , byAuthor := bumpAuthor (authorKey item) acc.byAuthor
    , dateCounts :=
        match item.date with
        | some d => bump (utcDayKey d) acc.dateCounts
        | none => acc.dateCounts }
  else acc

/-- Floor of the base-2 logarithm (0 at 0), by fuel recursion so that
concrete evaluations reduce: `floorLgAux` halves at most `fuel` times,
and `n` halvings always suffice for `n`. -/
def floorLgAux : Nat → Nat → Nat
  | 0, _ => 0
  | fuel + 1, n => if n < 2 then 0 else floorLgAux fuel (n / 2) + 1

def floorLg (n : Nat) : Nat := floorLgAux n n

/-- Round-half-even of the rational `p / q` to an integer (`0 < q`). -/
def rne (p q : Nat) : Nat :=
  let d := p / q
  let r := p % q
  if 2 * r < q then d
  else if q < 2 * r then d + 1
  else if d % 2 = 0 then d else d + 1

/-- The IEEE-754 binary64 value of the JS division `a / b` for
`1 ≤ b ≤ a`, as a pair `(m, s)` denoting the exact rational `m / 2^s`:
with `e = ⌊log2 (a/b)⌋`, the quotient scaled into `[2^52, 2^53]` rounds
to the nearest integer significand, ties to even.  `generateStats` only
divides with `0 < uniqueDays ≤ total` (the day histogram gains at most
one key per record), so the quotient is at least 1; quotients below 1,
overflow beyond 2^1024 and subnormals are unreachable there. -/
def flDivSig (a b : Nat) : Nat × Nat :=
  let e := floorLg (a / b)
  if e ≤ 52 then (rne (a * 2 ^ (52 - e)) b, 52 - e)
  else (rne a (b * 2 ^ (e - 52)) * 2 ^ (e - 52), 0)

/-- The expression `(total / uniqueDays).toFixed(1)`: the division rounds
to the nearest binary64 first (23 commits over 20 days divide to
1.1499999999999999…, below 1.15), then `toFixed` picks the integer `n`
minimizing `|n/10 − x|` with ties toward the larger `n` — for
`x = m / 2^s` that is `⌊10x + 1/2⌋ = ⌊(20m + 2^s) / 2^(s+1)⌋` — and
renders `n` with one digit after the decimal point.  (`toFixed` falls
back to exponential `ToString` notation only at `x ≥ 10^21`, unreachable
here: a JS array holds fewer than 2^32 elements, bounding the
quotient.) -/
def toFixed1 (total uniqueDays : Nat) : String :=
  let ms := flDivSig total uniqueDays
  let n := (20 * ms.1 + 2 ^ ms.2) / 2 ^ (ms.2 + 1)
  toString (n / 10) ++ "." ++ toString (n % 10)

/-- The result shape of `generateStats`. -/
structure Stats where
  total : Nat
  byType : List (String × Nat)
  byAuthor : List (String × JsValue)
  byDate : List (Nat × Nat)
  averagePerDay : JsValue
deriving Repr

/-- Function `generateStats` from tests/cli.test.js, lines 366-402. -/
def generateStats (items : List CommitItem) : Stats :=
  let acc := items.foldl statsStep ⟨[], [], []⟩
  let uniqueDays := acc.dateCounts.length
  { total := items.length
  , byType := acc.byType
  , byAuthor := acc.byAuthor
  , byDate := acc.dateCounts
  , averagePerDay :=
      if uniqueDays > 0 then .str (toFixed1 items.length uniqueDays) else .num 0 }

/-! ### The three key streams of the `generateStats` loop -/

/-- Key the loop feeds `stats.byType` for one record, if any. -/
def typeKeyOf (i : CommitItem) : Option String :=
  if hasTitle i then some (categorizeCommit i.title) else none

/-- Key the loop feeds `stats.byAuthor` for one record, if any. -/
def authorKeyOf (i : CommitItem) : Option String :=
  if hasTitle i then some (authorKey i) else none

/-- Key the loop feeds `dateCounts` for one record, if any. -/
def dateKeyOf (i : CommitItem) : Option Nat :=
  if hasTitle i then i.date.map utcDayKey else none

/-- The number of distinct active days: distinct per-day keys among the
records that have both a truthy title and a date. -/
def activeDayCount (items : List CommitItem) : Nat :=
  ((items.filterMap dateKeyOf).dedup).length

/-- Three commits spread over two distinct UTC days (two on day 0, one on
day 1). -/
def threeOverTwoDays : List CommitItem :=
  [ ⟨some "feat: a", some "user1", some 0⟩
  , ⟨some "feat: b", some "user1", some 3600000⟩
  , ⟨some "fix: c", some "user1", some 86400000⟩ ]

/-- A record with a timestamp but no title: the loop skips it entirely. -/
def untitledDated : CommitItem := ⟨none, none, some 0⟩

/-! ## `parseRelativeDate` (tests/cli.test.js lines 313-342)

```js
function parseRelativeDate(dateStr) {
  const now = new Date();
  const lower = dateStr.toLowerCase().trim();
  if (lower === "today") {
    return new Date(now.getFullYear(), now.getMonth(), now.getDate());
  }
  if (lower === "yesterday") {
    return new Date(now.getFullYear(), now.getMonth(), now.getDate() - 1);
  }
  const match = lower.match(/^(\d+)\s+(day|week|month|year)s?\s+ago$/);
  if (match) {
    const [, amount, unit] = match;
    const num = parseInt(amount);
    switch (unit) {
      case "day":   return new Date(now.getTime() - num * 24 * 60 * 60 * 1000);
      case "week":  return new Date(now.getTime() - num * 7 * 24 * 60 * 60 * 1000);
      case "month": return new Date(now.getFullYear(), now.getMonth() - num, now.getDate());
      case "year":  return new Date(now.getFullYear() - num, now.getMonth(), now.getDate());
    }
  }
  return null;
}
```

The `Date` model follows ECMA-262: `new Date(y, m, d)` first applies
`MakeFullYear` (an integer year argument 0-99 stands for 1900 + year),
then `MakeDay` normalizes the month index by floored division into years
and adds `d - 1` days to the first of that month — day-of-month overflow
runs into the following month, it is not clamped — and finally `TimeClip`
turns any instant beyond ±8,640,000,000,000,000 ms into Invalid Date
(`new Date(ms)` applies the same clip).  `Int` division `/` and `%` below
are Euclidean, which agrees with floored division for the positive
divisors used.  A valid `Date` value is its instant in UTC milliseconds;
the process-local clock has the fixed UTC offset `tz` (milliseconds). -/

/-- ECMA-262 `DayFromYear`: days from the epoch to January 1 of `y`. -/
def dayFromYear (y : Int) : Int :=
  365 * (y - 1970) + (y - 1969) / 4 - (y - 1901) / 100 + (y - 1601) / 400

/-- ECMA-262 `InLeapYear` as a 0/1 count. -/
def inLeapYear (y : Int) : Int :=
  if y % 4 ≠ 0 then 0 else if y % 100 ≠ 0 then 1 else if y % 400 ≠ 0 then 0 else 1

/-- Day within the year on which month `m` (0-indexed) starts. -/
def monthStart (m : Int) (leap : Int) : Int :=
  if m = 0 then 0
  else if m = 1 then 31
  else if m = 2 then 59 + leap
  else if m = 3 then 90 + leap
  else if m = 4 then 120 + leap
  else if m = 5 then 151 + leap
  else if m = 6 then 181 + leap
  else if m = 7 then 212 + leap
  else if m = 8 then 243 + leap
  else if m = 9 then 273 + leap
  else if m = 10 then 304 + leap
  else 334 + leap

/-- ECMA-262 `MakeDay`: the day number of `new Date(y, m, d)` (local),
with month normalization and day-of-month overflow. -/
def makeDay (y m d : Int) : Int :=
  dayFromYear (y + m / 12) + monthStart (m % 12) (inLeapYear (y + m / 12)) + (d - 1)

/-- Number of days in 0-indexed month `m` of year `y`. -/
def daysInMonth (y m : Int) : Int :=
  if m = 1 then 28 + inLeapYear y
  else if m = 3 ∨ m = 5 ∨ m = 8 ∨ m = 10 then 30 else 31

/-- What the JS clock hands the function: `now.getTime()` (UTC ms),
`now.getFullYear()/getMonth()/getDate()` (local civil fields), and the
fixed local UTC offset in milliseconds. -/
structure NowCtx where
  tz : Int
  time : Int
  year : Int
  month : Int
  day : Int

/-- A JS `Date` value: a clipped instant in UTC milliseconds, or the
Invalid Date produced beyond the representable range. -/
inductive JsDate where
  | valid (ms : Int)
  | invalid
deriving DecidableEq, Repr

/-- ECMA-262 `TimeClip`: instants beyond ±8,640,000,000,000,000 ms from
the epoch become Invalid Date. -/
def timeClip (t : Int) : JsDate :=
  if t.natAbs ≤ 8640000000000000 then .valid t else .invalid

/-- ECMA-262 `MakeFullYear`, applied by the multi-argument `Date`
constructor: an integer year argument between 0 and 99 stands for
1900 + year. -/
def legacyYear (y : Int) : Int :=
  if 0 ≤ y ∧ y ≤ 99 then 1900 + y else y

/-- The unclipped UTC instant of local midnight `new Date(y, m, d)`
(after the constructor's two-digit-year mapping). -/
def rawDate (ctx : NowCtx) (y m d : Int) : Int :=
  makeDay (legacyYear y) m d * 86400000 - ctx.tz

/-- The `Date` value `new Date(y, m, d)` constructs. -/
def mkDate (ctx : NowCtx) (y m d : Int) : JsDate :=
  timeClip (rawDate ctx y m d)

/-- The clock context is coherent: the civil fields are the local
decomposition of the instant, with a valid month index and day. -/
def NowCtx.Coherent (ctx : NowCtx) : Prop :=
  makeDay ctx.year ctx.month ctx.day = (ctx.time + ctx.tz) / 86400000 ∧
    0 ≤ ctx.month ∧ ctx.month < 12 ∧ 1 ≤ ctx.day ∧ ctx.day ≤ 31

/-- The unit word of the relative-date regex. -/
inductive AgoUnit where
  | day
  | week
  | month
  | year
deriving DecidableEq, Repr

/-- Model of `parseInt` on a digit string.  The model is exact; `parseInt`
itself rounds to the nearest binary64 above 2^53, but every count that
large drives each constructor branch beyond the `timeClip` range (already
N ≈ 10^8 days overshoots ±8.64e15 ms), where both the exact and the
rounded count produce Invalid Date, so the outputs agree on every
input. -/
def digitsToNat (l : List Char) : Nat :=
  l.foldl (fun a c => 10 * a + (c.toNat - '0'.toNat)) 0

/-- Regex piece `\s+`: at least one whitespace character, consumed greedily. -/
def eatWs1 : List Char → Option (List Char)
  | [] => none
  | c :: rest => if isJsWs c then some (rest.dropWhile isJsWs) else none

/-- Regex piece `(day|week|month|year)`: the leading unit keyword. -/
def eatUnit (l : List Char) : Option (AgoUnit × List Char) :=
  if ("day".data).isPrefixOf l then some (.day, l.drop 3)
  else if ("week".data).isPrefixOf l then some (.week, l.drop 4)
  else if ("month".data).isPrefixOf l then some (.month, l.drop 5)
  else if ("year".data).isPrefixOf l then some (.year, l.drop 4)
  else none

/-- Regex piece `s?`: an optional plural marker. -/
def eatPlural (l : List Char) : List Char :=
  if l.head? = some 's' then l.tail else l

/-- The anchored regex `^(\d+)\s+(day|week|month|year)s?\s+ago$` as a
deterministic scanner (each regex piece admits no backtracking here:
`\d+` and `\s+` are maximal because the following pieces cannot start
with a digit resp. whitespace, and dropping the optional `s` cannot make
`\s+` match). -/
def matchAgo (l : List Char) : Option (Nat × AgoUnit) :=
  if l.takeWhile Char.isDigit = [] then none
  else
    match eatWs1 (l.dropWhile Char.isDigit) with
    | none => none
    | some r1 =>
        match eatUnit r1 with
        | none => none
        | some (u, r2) =>
            match eatWs1 (eatPlural r2) with
            | none => none
            | some r4 =>
                if r4 = "ago".data
                  then some (digitsToNat (l.takeWhile Char.isDigit), u)
                  else none

/-- Function `parseRelativeDate` from tests/cli.test.js, lines 313-342, relative
to an explicit clock context. -/
def parseRelativeDate (ctx : NowCtx) (dateStr : String) : Option JsDate :=
  let lower := jsCanon dateStr
  if lower = "today".data then
    some (mkDate ctx ctx.year ctx.month ctx.day)
  else if lower = "yesterday".data then
    some (mkDate ctx ctx.year ctx.month (ctx.day - 1))
  else
    match matchAgo lower with
    | some (num, .day) =>
        some (timeClip (ctx.time - (num : Int) * (24 * 60 * 60 * 1000)))
    | some (num, .week) =>
        some (timeClip (ctx.time - (num : Int) * (7 * 24 * 60 * 60 * 1000)))
    | some (num, .month) => some (mkDate ctx ctx.year (ctx.month - (num : Int)) ctx.day)
    | some (num, .year) => some (mkDate ctx (ctx.year - (num : Int)) ctx.month ctx.day)
    | none => none

/-- The clock the unit tests pin: 2025-01-15T10:00:00Z, in UTC. -/
def testCtx : NowCtx :=
  { tz := 0, time := 1736935200000, year := 2025, month := 0, day := 15 }

/-! ### Decimal rendering of the count `N` and canonicalization lemmas -/

/-- Canonical decimal digits of a natural number (most significant
first). -/
def natDigits (n : Nat) : List Char :=
  if h : n < 10 then [Char.ofNat (48 + n)]
  else natDigits (n / 10) ++ [Char.ofNat (48 + n % 10)]
decreasing_by omega

/-- The unit keyword of the relative-date regex. -/
def unitWord : AgoUnit → List Char
  | .day => "day".data
  | .week => "week".data
  | .month => "month".data
  | .year => "year".data

/-- The canonical written form `" unit[s] ago"` that follows the digits. -/
def agoSuffix (u : AgoUnit) (pl : Bool) : List Char :=
  ' ' :: (unitWord u ++ (if pl then ['s'] else []) ++ (' ' :: "ago".data))

/-- The calendar year containing the month exactly `N` months before the
clock's (year, month): month indices count as `12·year + month`. -/
def targetYearM (ctx : NowCtx) (N : Nat) : Int :=
  ctx.year + (ctx.month - (N : Int)) / 12

/-- The 0-indexed month exactly `N` months before the clock's month. -/
def targetMonthM (ctx : NowCtx) (N : Nat) : Int :=
  (ctx.month - (N : Int)) % 12

/-- The clock fixed at local 2025-03-31, UTC offset zero. -/
def marchCtx : NowCtx :=
  { tz := 0, time := 1743379200000, year := 2025, month := 2, day := 31 }

/-! ## `validateDate` (titles.js listing in README.md, lines 1735-1760)

```js
function validateDate(date, name) {
  if (!date || typeof date !== "string") {
    throw new Error(`--${name} must be a valid date string`);
  }
  const relativeDate = parseRelativeDate(date);
  if (relativeDate) { return relativeDate; }
  const dt = new Date(date);
  if (Number.isNaN(dt.valueOf())) {
    throw new Error(`--${name} is not a valid date: ${date}`);
  }
  const now = new Date();
  const yearDiff = Math.abs(now.getFullYear() - dt.getFullYear());
  if (yearDiff > 50) {
    throw new Error(`--${name} date seems unreasonable: ${date}`);
  }
  return dt;
}
```

The thrown errors are tagged: `missingDate` for the falsy/non-string
guard, `invalidDate` for "is not a valid date", `unreasonableDate` for
"date seems unreasonable".  The absolute parse `new Date(date)` accepts
implementation-defined formats beyond ISO-8601, so it is a parameter
`abs`, returning the parsed instant and its local year
(`dt.getFullYear()`), or `none` when the parse is `NaN`. -/

inductive DateError where
  | missingDate
  | invalidDate
  | unreasonableDate
deriving DecidableEq, Repr

def validateDate (ctx : NowCtx) (abs : String → Option (Int × Int)) :
    Option String → Except DateError JsDate
  | none => .error .missingDate
  | some s =>
      if s = "" then .error .missingDate
      else
        match parseRelativeDate ctx s with
        | some rel => .ok rel
        | none =>
            match abs s with
            | none => .error .invalidDate
            | some (t, y) =>
                if 50 < (ctx.year - y).natAbs then .error .unreasonableDate
                else .ok (.valid t)

/-! ### Completeness of the relative-date scanner -/

/-- The language of `parseRelativeDate`'s three patterns over the
canonicalized input: `today`, `yesterday`, or
`digits, whitespace, unit word, optional s, whitespace, ago`. -/
def RelShape (l : List Char) : Prop :=
  l = "today".data ∨ l = "yesterday".data ∨
    ∃ (ds w1 w2 : List Char) (u : AgoUnit) (pl : Bool),
      ds ≠ [] ∧ (∀ c ∈ ds, c.isDigit = true) ∧
      w1 ≠ [] ∧ (∀ c ∈ w1, isJsWs c = true) ∧
      w2 ≠ [] ∧ (∀ c ∈ w2, isJsWs c = true) ∧
      l = ds ++ w1 ++ unitWord u ++ (if pl then ['s'] else []) ++ w2 ++ "ago".data

/-! ## Link-header parsing (tests/cli.test.js lines 1015-1023)

```js
const nextMatch = linkHeader.match(/<([^>]+)>;\s*rel="next"/);
const nextUrl = nextMatch ? nextMatch[1] : null;
```

`String.prototype.match` returns the leftmost match; inside it, `[^>]+`
is forced to stop at the first `>` (its class excludes `>`), and `\s*`
is forced to stop at `rel`'s `r`, so the scan below is the regex. -/

/-- The literal tail `rel="next"` of the pattern. -/
def relNextTag : List Char := "rel=\"next\"".data

/-- Try `<([^>]+)>;\s*rel="next"` anchored at the start of `l`; return
the capture. -/
def matchNextAt : List Char → Option (List Char)
  | [] => none
  | c :: rest =>
      if c = '<' then
        if rest.takeWhile (fun x => !(x == '>')) = [] then none
        else
          match rest.dropWhile (fun x => !(x == '>')) with
          | '>' :: ';' :: r2 =>
              if relNextTag.isPrefixOf (r2.dropWhile isJsWs)
                then some (rest.takeWhile (fun x => !(x == '>')))
                else none
          | _ => none
      else none

/-- The leftmost match of the pattern over the whole header. -/
def findNext : List Char → Option (List Char)
  | [] => none
  | c :: rest =>
      match matchNextAt (c :: rest) with
      | some u => some u
      | none => findNext rest

/-- The `next`-URL extraction of tests/cli.test.js lines 1015-1023. -/
def parseNextLink (header : String) : Option String :=
  (findNext header.data).map fun l => ⟨l⟩

/-- A header contains a `rel="next"` entry. -/
def HasNextEntry (l : List Char) : Prop :=
  ∃ (pre url ws post : List Char),
    url ≠ [] ∧ ('>' ∉ url) ∧ (∀ c ∈ ws, isJsWs c = true) ∧
    l = pre ++ '<' :: (url ++ '>' :: ';' :: (ws ++ relNextTag ++ post))

/-! ## Theorems -/

theorem token_le_of_ruleMatches {r : CommitRule} {s : List Char}
    (h : ruleMatches r s = true) : ruleToken r <+: s := by
  cases r with
  | typedPrefix tk lbl =>
      simp only [ruleMatches, Bool.or_eq_true, Bool.and_eq_true] at h
      rcases h with h | ⟨h, -⟩
      · exact (List.prefix_append tk [':']).trans ( List.isPrefixOf_iff_prefix.mp h)
      · exact (List.prefix_append tk ['(']).trans ( List.isPrefixOf_iff_prefix.mp h)
  | mergePrefix =>
      exact List.isPrefixOf_iff_prefix.mp h

/-- No rule's token is a prefix of a different rule's token (checked over
the twelve concrete tokens). -/
theorem tokens_incomparable :
    ∀ r1 ∈ commitRules, ∀ r2 ∈ commitRules, r1 ≠ r2 →
      (ruleToken r1).isPrefixOf (ruleToken r2) = false := by decide

/-- At most one of the twelve rules fires on any title: prefixes of a
common string are comparable, and distinct rule tokens are not. -/
theorem ruleMatches_unique {r1 r2 : CommitRule} {s : List Char}
    (h1 : r1 ∈ commitRules) (h2 : r2 ∈ commitRules)
    (m1 : ruleMatches r1 s = true) (m2 : ruleMatches r2 s = true) : r1 = r2 := by
  by_contra hne
  have p1 := token_le_of_ruleMatches m1
  have p2 := token_le_of_ruleMatches m2
  rcases List.prefix_or_prefix_of_prefix p1 p2 with h | h
  · have hf := tokens_incomparable r1 h1 r2 h2 hne
    rw [← List.isPrefixOf_iff_prefix] at h
    rw [hf] at h
    exact Bool.false_ne_true h
  · have hf := tokens_incomparable r2 h2 r1 h1 (Ne.symm hne)
    rw [← List.isPrefixOf_iff_prefix] at h
    rw [hf] at h
    exact Bool.false_ne_true h

/-- Lookup via `find?` does not depend on the order of the list when at most one
element satisfies the predicate. -/
theorem find?_eq_of_perm_of_unique {α : Type} (p : α → Bool) {l1 l2 : List α}
    (hp : l1.Perm l2)
    (uniq : ∀ a b, a ∈ l1 → b ∈ l1 → p a = true → p b = true → a = b) :
    l1.find? p = l2.find? p := by
  cases h1 : l1.find? p with
  | none =>
      rw [List.find?_eq_none] at h1
      symm
      rw [List.find?_eq_none]
      intro x hx
      exact h1 x (hp.mem_iff.mpr hx)
  | some a =>
      have ha := List.find?_some h1
      have hmem := List.mem_of_find?_eq_some h1
      cases h2 : l2.find? p with
      | none =>
          rw [List.find?_eq_none] at h2
          exact absurd ha (h2 a (hp.mem_iff.mp hmem))
      | some b =>
          have hb := List.find?_some h2
          have hbm := List.mem_of_find?_eq_some h2
          rw [uniq a b hmem (hp.mem_iff.mpr hbm) ha hb]

/-- Reordering the rule table never changes `categorizeCommit`'s output. -/
theorem categorizeWith_perm {rules : List CommitRule} (hp : rules.Perm commitRules)
    (t : Option String) : categorizeWith rules t = categorizeCommit t := by
  unfold categorizeCommit categorizeWith
  cases t with
  | none => rfl
  | some s =>
      by_cases hs : s = ""
      · simp [hs]
      · simp only [hs, if_false]
        rw [find?_eq_of_perm_of_unique _ hp]
        intro a b ha hb pa pb
        exact ruleMatches_unique (hp.mem_iff.mp ha) (hp.mem_iff.mp hb) pa pb

/-! ### Label characterizations -/

theorem ruleLabel_mem_labels : ∀ r ∈ commitRules, ruleLabel r ∈ categoryLabels := by
  decide

theorem ruleLabel_ne_other : ∀ r ∈ commitRules, ruleLabel r ≠ "other" := by
  decide

theorem ruleLabel_injective :
    ∀ r1 ∈ commitRules, ∀ r2 ∈ commitRules, ruleLabel r1 = ruleLabel r2 → r1 = r2 := by
  decide

/-- Totality: `categorizeCommit` always lands in the thirteen contract labels. -/
theorem categorize_mem_labels (t : Option String) :
    categorizeCommit t ∈ categoryLabels := by
  unfold categorizeCommit categorizeWith
  cases t with
  | none => decide
  | some s =>
      by_cases hs : s = ""
      · simp only [hs, if_true]
        decide
      · simp only [hs, if_false]
        cases hf : commitRules.find? (fun r => ruleMatches r (s.data.map jsToLower)) with
        | none => decide
        | some r => exact ruleLabel_mem_labels r (List.mem_of_find?_eq_some hf)

/-- For a rule in the table, `categorizeCommit` returns its label exactly
when the title is non-empty and that rule fires on the lowercased title. -/
theorem categorize_eq_label_iff {r0 : CommitRule} (h0 : r0 ∈ commitRules) (t : String) :
    categorizeCommit (some t) = ruleLabel r0 ↔
      t ≠ "" ∧ ruleMatches r0 (t.data.map jsToLower) = true := by
  unfold categorizeCommit categorizeWith
  by_cases hs : t = ""
  · simp only [hs, if_pos rfl]
    constructor
    · intro h
      exact absurd h.symm (ruleLabel_ne_other r0 h0)
    · rintro ⟨h, -⟩
      exact absurd rfl h
  · simp only [if_neg hs]
    cases hf : commitRules.find? (fun r => ruleMatches r (t.data.map jsToLower)) with
    | none =>
        constructor
        · intro h
          exact absurd h.symm (ruleLabel_ne_other r0 h0)
        · rintro ⟨-, hm⟩
          rw [List.find?_eq_none] at hf
          exact absurd hm (hf r0 h0)
    | some r =>
        have hr := List.find?_some hf
        have hrm := List.mem_of_find?_eq_some hf
        constructor
        · intro h
          have hrr : r = r0 := ruleLabel_injective r hrm r0 h0 h
          exact ⟨hs, hrr ▸ hr⟩
        · rintro ⟨-, hm⟩
          have hrr : r = r0 := ruleMatches_unique hrm h0 hr hm
          rw [hrr]

/-! ### Shape characterizations of the regex guards -/

/-- Regex piece `[^)]*\):` consumes exactly a `)`-free scope, the first `)`, and a
following `:`. -/
theorem scopeClose_iff (l : List Char) :
    scopeClose l = true ↔
      ∃ pre post, (')' ∉ pre) ∧ l = pre ++ ')' :: ':' :: post := by
  induction l with
  | nil =>
      simp only [scopeClose]
      constructor
      · intro h
        cases h
      · rintro ⟨pre, post, -, heq⟩
        cases pre <;> simp at heq
  | cons c rest ih =>
      by_cases hc : c = ')'
      · subst hc
        simp only [scopeClose, if_pos rfl, decide_eq_true_eq]
        constructor
        · intro h
          cases rest with
          | nil => simp at h
          | cons c2 r2 =>
              have h2 : c2 = ':' := by simpa using h
              exact ⟨[], r2, by simp, by simp [h2]⟩
        · rintro ⟨pre, post, hnp, heq⟩
          cases pre with
          | nil =>
              simp only [List.nil_append, List.cons.injEq, true_and] at heq
              simp [heq]
          | cons a pre' =>
              simp only [List.cons_append, List.cons.injEq] at heq
              simp only [List.mem_cons, not_or] at hnp
              exact absurd heq.1 hnp.1
      · simp only [scopeClose, if_neg hc]
        rw [ih]
        constructor
        · rintro ⟨pre, post, hnp, heq⟩
          refine ⟨c :: pre, post, ?_, by simp [heq]⟩
          simp only [List.mem_cons, not_or]
          exact ⟨fun h => hc h.symm, hnp⟩
        · rintro ⟨pre, post, hnp, heq⟩
          cases pre with
          | nil =>
              simp only [List.nil_append, List.cons.injEq] at heq
              exact absurd heq.1 hc
          | cons a pre' =>
              simp only [List.cons_append, List.cons.injEq] at heq
              simp only [List.mem_cons, not_or] at hnp
              exact ⟨pre', post, hnp.2, heq.2⟩

/-- The regex `^tk(\([^)]*\))?:` fires exactly on strings starting with
`tk:`, or with `tk(`, a `)`-free scope, and `):`. -/
theorem typed_matches_iff (tk : List Char) (lbl : String) (s : List Char) :
    ruleMatches (.typedPrefix tk lbl) s = true ↔
      ((tk ++ [':']) <+: s ∨
        ∃ scope rest, (')' ∉ scope) ∧
          s = tk ++ '(' :: (scope ++ ')' :: ':' :: rest)) := by
  simp only [ruleMatches, Bool.or_eq_true, Bool.and_eq_true,
    List.isPrefixOf_iff_prefix]
  apply or_congr Iff.rfl
  constructor
  · rintro ⟨⟨u, hu⟩, hsc⟩
    have hdrop : s.drop (tk.length + 1) = u := by
      have : tk.length + 1 = (tk ++ ['(']).length := by simp
      rw [this, ← hu, List.drop_left]
    rw [hdrop] at hsc
    rcases (scopeClose_iff u).mp hsc with ⟨pre, post, hnp, hpre⟩
    refine ⟨pre, post, hnp, ?_⟩
    rw [← hu, hpre]
    simp
  · rintro ⟨scope, rest, hnp, heq⟩
    constructor
    · refine ⟨scope ++ ')' :: ':' :: rest, ?_⟩
      rw [heq]
      simp
    · have : s.drop (tk.length + 1) = scope ++ ')' :: ':' :: rest := by
        have hl : tk.length + 1 = (tk ++ ['(']).length := by simp
        rw [heq]
        have : tk ++ '(' :: (scope ++ ')' :: ':' :: rest)
            = (tk ++ ['(']) ++ (scope ++ ')' :: ':' :: rest) := by simp
        rw [this, hl, List.drop_left]
      rw [this]
      exact (scopeClose_iff _).mpr ⟨scope, rest, hnp, rfl⟩

/-- The merge rule needs no colon: `categorizeCommit` answers `"merge"`
exactly when the lowercased title starts with the characters `merge`. -/
theorem categorize_eq_merge_iff (t : String) :
    categorizeCommit (some t) = "merge" ↔
      ("merge".data) <+: (t.data.map jsToLower) := by
  have h0 : CommitRule.mergePrefix ∈ commitRules := by decide
  have hiff := categorize_eq_label_iff h0 t
  simp only [ruleLabel] at hiff
  rw [hiff]
  constructor
  · rintro ⟨-, hm⟩
    exact List.isPrefixOf_iff_prefix.mp hm
  · intro hp
    refine ⟨?_, List.isPrefixOf_iff_prefix.mpr hp⟩
    intro ht
    subst ht
    have hd : ("" : String).data.map jsToLower = [] := rfl
    rw [hd, List.prefix_nil] at hp
    exact absurd hp (by decide)

/-- Function `categorizeCommit` answers `"feature"` exactly on the shapes
`feat:…` and `feat(scope):…` of the lowercased title. -/
theorem categorize_eq_feature_iff (t : String) :
    categorizeCommit (some t) = "feature" ↔
      (("feat".data ++ [':']) <+: (t.data.map jsToLower) ∨
        ∃ scope rest, (')' ∉ scope) ∧
          t.data.map jsToLower = "feat".data ++ '(' :: (scope ++ ')' :: ':' :: rest)) := by
  have h0 : (CommitRule.typedPrefix "feat".data "feature") ∈ commitRules := by decide
  have hiff := categorize_eq_label_iff h0 t
  simp only [ruleLabel] at hiff
  rw [hiff, typed_matches_iff]
  constructor
  · rintro ⟨-, h⟩
    exact h
  · intro h
    refine ⟨?_, h⟩
    intro ht
    subst ht
    have hd : ("" : String).data.map jsToLower = [] := rfl
    rw [hd] at h
    rcases h with h | ⟨scope, rest, -, h⟩
    · have := h.length_le
      simp at this
    · exact absurd h.symm (by simp)

/-- C1.  `categorizeCommit` is total over the thirteen labels; the five
contract examples hold; the merge rule is a bare case-insensitive
`merge` test with no colon required; and a typed rule such as `feature`
fires exactly on the case-insensitive shapes `feat:` / `feat(scope):`. -/
theorem c1_categorizeCommit_contract :
    (∀ t : Option String, categorizeCommit t ∈ categoryLabels) ∧
    categorizeCommit (some "feat: x") = "feature" ∧
    categorizeCommit (some "feat(scope): x") = "feature" ∧
    categorizeCommit (some "Merge pull request #1") = "merge" ∧
    categorizeCommit (some "") = "other" ∧
    categorizeCommit none = "other" ∧
    (∀ t : String, categorizeCommit (some t) = "merge" ↔
      ("merge".data) <+: (t.data.map jsToLower)) ∧
    (∀ t : String, categorizeCommit (some t) = "feature" ↔
      (("feat".data ++ [':']) <+: (t.data.map jsToLower) ∨
        ∃ scope rest, (')' ∉ scope) ∧
          t.data.map jsToLower = "feat".data ++ '(' :: (scope ++ ')' :: ':' :: rest))) :=
  ⟨categorize_mem_labels, by decide, by decide, by decide, by decide, by decide,
    categorize_eq_merge_iff, categorize_eq_feature_iff⟩

/-- C5.  At most one of the twelve rules fires on any lowercased title
(their anchor tokens are pairwise prefix-incomparable), so evaluating the
rules in any permuted order yields the same label as `categorizeCommit`. -/
theorem c5_rule_order_irrelevant :
    (∀ s : List Char, ∀ r1 ∈ commitRules, ∀ r2 ∈ commitRules,
        ruleMatches r1 s = true → ruleMatches r2 s = true → r1 = r2) ∧
    (∀ rules : List CommitRule, rules.Perm commitRules →
        ∀ t : Option String, categorizeWith rules t = categorizeCommit t) :=
  ⟨fun _ r1 h1 r2 h2 m1 m2 => ruleMatches_unique h1 h2 m1 m2,
    fun _ hp t => categorizeWith_perm hp t⟩

/-! ### Histogram lemmas -/

theorem getCount_bump {κ : Type} [DecidableEq κ] (k k' : κ) (h : List (κ × Nat)) :
    getCount k (bump k' h) = if k' = k then getCount k h + 1 else getCount k h := by
  induction h with
  | nil =>
      by_cases hk : k' = k
      · subst hk
        simp [bump, getCount]
      · simp [bump, getCount, hk]
  | cons p rest ih =>
      obtain ⟨k0, n0⟩ := p
      simp only [bump]
      by_cases h0 : k0 = k'
      · simp only [if_pos h0]
        subst h0
        by_cases hk : k0 = k
        · subst hk
          simp [getCount]
        · simp [getCount, hk]
      · simp only [if_neg h0]
        by_cases hk : k0 = k
        · have hne : ¬ k' = k := fun he => h0 (hk.trans he.symm)
          simp [getCount, hk, hne]
        · simp [getCount, hk, ih]

theorem bump_pos {κ : Type} [DecidableEq κ] (k : κ) (h : List (κ × Nat))
    (hp : ∀ p ∈ h, 0 < p.2) : ∀ p ∈ bump k h, 0 < p.2 := by
  induction h with
  | nil =>
      intro p hm
      simp only [bump, List.mem_singleton] at hm
      simp [hm]
  | cons q rest ih =>
      obtain ⟨k0, n0⟩ := q
      simp only [bump]
      split_ifs with h0
      · intro p hm
        rcases List.mem_cons.mp hm with h | h
        · simp [h]
        · exact hp p (List.mem_cons_of_mem _ h)
      · intro p hm
        rcases List.mem_cons.mp hm with h | h
        · exact h ▸ hp (k0, n0) (List.mem_cons_self _ _)
        · exact ih (fun q hq => hp q (List.mem_cons_of_mem _ hq)) p h

theorem keys_bump {κ : Type} [DecidableEq κ] (k : κ) (h : List (κ × Nat)) :
    (bump k h).map Prod.fst =
      if k ∈ h.map Prod.fst then h.map Prod.fst else h.map Prod.fst ++ [k] := by
  induction h with
  | nil => simp [bump]
  | cons q rest ih =>
      obtain ⟨k0, n0⟩ := q
      by_cases h0 : k0 = k
      · subst h0
        simp [bump]
      · have hks : ¬ k = k0 := fun he => h0 he.symm
        by_cases hm : k ∈ rest.map Prod.fst
        · simp [bump, h0, ih, hm, hks]
        · simp [bump, h0, ih, hm, hks]

theorem keys_bump_nodup {κ : Type} [DecidableEq κ] (k : κ) (h : List (κ × Nat))
    (hn : (h.map Prod.fst).Nodup) : ((bump k h).map Prod.fst).Nodup := by
  rw [keys_bump]
  split_ifs with hm
  · exact hn
  · simp [List.nodup_append, hn, hm]

theorem getCount_foldl {κ : Type} [DecidableEq κ] (ks : List κ) :
    ∀ (h0 : List (κ × Nat)) (k : κ),
      getCount k (ks.foldl (fun h x => bump x h) h0) = getCount k h0 + ks.count k := by
  induction ks with
  | nil => simp
  | cons x ks ih =>
      intro h0 k
      simp only [List.foldl_cons]
      rw [ih, getCount_bump]
      simp only [List.count_cons]
      by_cases hx : x = k
      · subst hx
        simp only [if_pos rfl, beq_self_eq_true, if_true]
        omega
      · have hkx : ¬ k = x := fun he => hx he.symm
        simp [hx, hkx]

theorem keys_foldl_mem {κ : Type} [DecidableEq κ] (ks : List κ) :
    ∀ (h0 : List (κ × Nat)) (k : κ),
      (k ∈ (ks.foldl (fun h x => bump x h) h0).map Prod.fst) ↔
        k ∈ h0.map Prod.fst ∨ k ∈ ks := by
  induction ks with
  | nil => simp
  | cons x ks ih =>
      intro h0 k
      simp only [List.foldl_cons]
      rw [ih, keys_bump]
      split_ifs with hm
      · by_cases hk : k = x
        · subst hk
          simp [hm]
        · simp [hk]
      · simp only [List.mem_append, List.mem_singleton, List.mem_cons]
        tauto

theorem keys_foldl_nodup {κ : Type} [DecidableEq κ] (ks : List κ) :
    ∀ (h0 : List (κ × Nat)), (h0.map Prod.fst).Nodup →
      ((ks.foldl (fun h x => bump x h) h0).map Prod.fst).Nodup := by
  induction ks with
  | nil => exact fun h0 hn => hn
  | cons x ks ih =>
      intro h0 hn
      simp only [List.foldl_cons]
      exact ih _ (keys_bump_nodup x h0 hn)

theorem foldl_bump_pos {κ : Type} [DecidableEq κ] (ks : List κ) :
    ∀ (h0 : List (κ × Nat)), (∀ p ∈ h0, 0 < p.2) →
      ∀ p ∈ ks.foldl (fun h x => bump x h) h0, 0 < p.2 := by
  induction ks with
  | nil => exact fun h0 hp => hp
  | cons x ks ih =>
      intro h0 hp
      simp only [List.foldl_cons]
      exact ih _ (bump_pos x h0 hp)

/-- Distinct-key count of a histogram built by `bump` from the empty
object: the number of distinct keys in the bumped stream. -/
theorem length_foldl_bump {κ : Type} [DecidableEq κ] (ks : List κ) :
    (ks.foldl (fun h x => bump x h) []).length = ks.dedup.length := by
  set res := ks.foldl (fun h x => bump x h) [] with hres
  have hlen : res.length = (res.map Prod.fst).length := by simp
  have hnd : (res.map Prod.fst).Nodup := keys_foldl_nodup ks [] (by simp)
  have hmem : ∀ k, k ∈ res.map Prod.fst ↔ k ∈ ks := by
    intro k
    rw [hres, keys_foldl_mem]
    simp
  have hfs : (res.map Prod.fst).toFinset = ks.toFinset := by
    apply Finset.ext
    intro k
    rw [List.mem_toFinset, List.mem_toFinset, hmem]
  rw [hlen, ← List.toFinset_card_of_nodup hnd, hfs, List.card_toFinset]

/-- A string with `"1"` appended is not the empty string. -/
theorem str_append_one_ne_empty (s : String) : s ++ "1" ≠ "" := by
  intro he
  have hl := congrArg String.length he
  rw [String.length_append] at hl
  simp at hl
  exact absurd hl.2 (by decide)

/-- Invariant of the `byAuthor` object: `__proto__` is never an own key,
non-prototype keys hold positive numeric counts, prototype-named keys
hold non-empty strings.  One `bumpAuthorOwn` step (on a key other than
`__proto__`) preserves it. -/
theorem bumpAuthorOwn_inv (k : String) (hkp : k ≠ "__proto__") :
    ∀ h : List (String × JsValue),
      (∀ p ∈ h, p.1 ≠ "__proto__" ∧
        (p.1 ∉ protoProps → ∃ n, p.2 = JsValue.num n ∧ 0 < n) ∧
        (p.1 ∈ protoProps → ∃ s, p.2 = JsValue.str s ∧ s ≠ "")) →
      ∀ p ∈ bumpAuthorOwn k h, p.1 ≠ "__proto__" ∧
        (p.1 ∉ protoProps → ∃ n, p.2 = JsValue.num n ∧ 0 < n) ∧
        (p.1 ∈ protoProps → ∃ s, p.2 = JsValue.str s ∧ s ≠ "") := by
  intro h
  induction h with
  | nil =>
      intro _ p hm
      simp only [bumpAuthorOwn, List.mem_singleton] at hm
      subst hm
      refine ⟨hkp, ?_, ?_⟩
      · intro hout
        dsimp only
        rw [if_neg hout]
        exact ⟨1, rfl, Nat.one_pos⟩
      · intro hin
        dsimp only
        rw [if_pos hin]
        exact ⟨protoString k ++ "1", rfl, str_append_one_ne_empty _⟩
  | cons q rest ih =>
      intro hP p hm
      obtain ⟨k0, v0⟩ := q
      have hq := hP (k0, v0) (List.mem_cons_self _ _)
      have hrest := fun p hp => hP p (List.mem_cons_of_mem _ hp)
      simp only [bumpAuthorOwn] at hm
      split_ifs at hm with h0 hT
      · rcases List.mem_cons.mp hm with hm | hm
        · subst hm
          refine ⟨hq.1, ?_, ?_⟩
          · intro hout
            obtain ⟨n, hv, hn⟩ := hq.2.1 hout
            dsimp only at hv ⊢
            rw [hv]
            exact ⟨n + 1, rfl, by omega⟩
          · intro hin
            obtain ⟨t, hv, hs⟩ := hq.2.2 hin
            dsimp only at hv ⊢
            rw [hv]
            exact ⟨t ++ "1", rfl, str_append_one_ne_empty t⟩
        · exact hrest p hm
      · rcases List.mem_cons.mp hm with hm | hm
        · subst hm
          refine ⟨hq.1, ?_, ?_⟩
          · intro hout
            exact ⟨1, rfl, Nat.one_pos⟩
          · intro hin
            obtain ⟨t, hv, hs⟩ := hq.2.2 hin
            dsimp only at hv
            exact absurd (by simp [truthyV, hv, hs]) hT
        · exact hrest p hm
      · rcases List.mem_cons.mp hm with hm | hm
        · subst hm
          exact hq
        · exact ih hrest p hm

/-- The `byAuthor` invariant is preserved by `bumpAuthor` on any key. -/
theorem bumpAuthor_inv (k : String) (h : List (String × JsValue))
    (hP : ∀ p ∈ h, p.1 ≠ "__proto__" ∧
        (p.1 ∉ protoProps → ∃ n, p.2 = JsValue.num n ∧ 0 < n) ∧
        (p.1 ∈ protoProps → ∃ s, p.2 = JsValue.str s ∧ s ≠ "")) :
    ∀ p ∈ bumpAuthor k h, p.1 ≠ "__proto__" ∧
        (p.1 ∉ protoProps → ∃ n, p.2 = JsValue.num n ∧ 0 < n) ∧
        (p.1 ∈ protoProps → ∃ s, p.2 = JsValue.str s ∧ s ≠ "") := by
  unfold bumpAuthor
  split_ifs with hkp
  · exact hP
  · exact bumpAuthorOwn_inv k hkp h hP

/-- On a non-prototype key `a`, `bumpAuthorOwn` behaves as the clean
counter: the count at `a` rises by one exactly when `a` is the bumped
key. -/
theorem bumpAuthorOwn_count (k a : String) (ha : a ∉ protoProps) :
    ∀ h : List (String × JsValue),
      (∀ p ∈ h, p.1 ∉ protoProps → ∃ n, p.2 = JsValue.num n ∧ 0 < n) →
      getCountA a (bumpAuthorOwn k h)
        = getCountA a h + (if k = a then 1 else 0) := by
  intro h
  induction h with
  | nil =>
      intro _
      by_cases hk : k = a
      · subst hk
        rw [if_pos rfl]
        simp [bumpAuthorOwn, if_neg ha, getCountA]
      · rw [if_neg hk]
        simp [bumpAuthorOwn, getCountA, hk]
  | cons q rest ih =>
      intro hP
      obtain ⟨k0, v0⟩ := q
      have hrest := fun p hp => hP p (List.mem_cons_of_mem _ hp)
      by_cases h0 : k0 = k
      · subst h0
        rw [show bumpAuthorOwn k0 ((k0, v0) :: rest)
            = (k0, if truthyV v0 then plusOne v0 else JsValue.num 1) :: rest from by
          simp [bumpAuthorOwn]]
        by_cases hk : k0 = a
        · subst hk
          obtain ⟨n, hv, hn⟩ := hP (k0, v0) (List.mem_cons_self _ _) ha
          dsimp only at hv
          subst hv
          rw [if_pos rfl,
            if_pos (show truthyV (JsValue.num n) = true by
              simp only [truthyV, bne_iff_ne, ne_eq]
              omega)]
          simp [getCountA, plusOne]
        · rw [if_neg hk]
          simp [getCountA, hk]
      · rw [show bumpAuthorOwn k ((k0, v0) :: rest)
            = (k0, v0) :: bumpAuthorOwn k rest from by
          simp [bumpAuthorOwn, h0]]
        by_cases hk : k0 = a
        · have hne : ¬ k = a := fun he => h0 (hk.trans he.symm)
          rw [if_neg hne]
          simp [getCountA, hk]
        · simp only [getCountA, hk, if_false]
          exact ih hrest

/-- On a non-prototype key `a`, `bumpAuthor` behaves as the clean
counter (a `__proto__` write never touches `a`). -/
theorem getCountA_bumpAuthor (k a : String) (ha : a ∉ protoProps)
    (h : List (String × JsValue))
    (hP : ∀ p ∈ h, p.1 ∉ protoProps → ∃ n, p.2 = JsValue.num n ∧ 0 < n) :
    getCountA a (bumpAuthor k h)
      = getCountA a h + (if k = a then 1 else 0) := by
  unfold bumpAuthor
  by_cases hkp : k = "__proto__"
  · rw [if_pos hkp]
    have hka : ¬ k = a := by
      intro he
      rw [← he, hkp] at ha
      exact ha (by decide)
    rw [if_neg hka, Nat.add_zero]
  · rw [if_neg hkp]
    exact bumpAuthorOwn_count k a ha h hP

theorem authorFold_inv (ks : List String) :
    ∀ h0 : List (String × JsValue),
      (∀ p ∈ h0, p.1 ≠ "__proto__" ∧
        (p.1 ∉ protoProps → ∃ n, p.2 = JsValue.num n ∧ 0 < n) ∧
        (p.1 ∈ protoProps → ∃ s, p.2 = JsValue.str s ∧ s ≠ "")) →
      ∀ p ∈ ks.foldl (fun h x => bumpAuthor x h) h0, p.1 ≠ "__proto__" ∧
        (p.1 ∉ protoProps → ∃ n, p.2 = JsValue.num n ∧ 0 < n) ∧
        (p.1 ∈ protoProps → ∃ s, p.2 = JsValue.str s ∧ s ≠ "") := by
  induction ks with
  | nil => exact fun h0 hp => hp
  | cons x ks ih =>
      intro h0 hp
      simp only [List.foldl_cons]
      exact ih _ (bumpAuthor_inv x h0 hp)

/-- Histogram lemma for the author counter: on non-prototype keys, the
folded object counts key occurrences exactly. -/
theorem getCountA_authorFold (ks : List String) (a : String) (ha : a ∉ protoProps) :
    ∀ h0 : List (String × JsValue),
      (∀ p ∈ h0, p.1 ≠ "__proto__" ∧
        (p.1 ∉ protoProps → ∃ n, p.2 = JsValue.num n ∧ 0 < n) ∧
        (p.1 ∈ protoProps → ∃ s, p.2 = JsValue.str s ∧ s ≠ "")) →
      getCountA a (ks.foldl (fun h x => bumpAuthor x h) h0)
        = getCountA a h0 + ks.count a := by
  induction ks with
  | nil =>
      intro h0 _
      simp
  | cons x ks ih =>
      intro h0 hp
      simp only [List.foldl_cons]
      rw [ih _ (bumpAuthor_inv x h0 hp),
        getCountA_bumpAuthor x a ha h0 (fun p hq ho => (hp p hq).2.1 ho)]
      simp only [List.count_cons]
      by_cases hx : x = a
      · subst hx
        simp only [if_pos rfl, beq_self_eq_true, if_true]
        omega
      · have hax : ¬ a = x := fun he => hx he.symm
        simp [hx, hax]

theorem statsFold_byType (items : List CommitItem) :
    ∀ acc : StatsAcc,
      (items.foldl statsStep acc).byType
        = (items.filterMap typeKeyOf).foldl (fun h x => bump x h) acc.byType := by
  induction items with
  | nil => intro acc; rfl
  | cons i items ih =>
      intro acc
      simp only [List.foldl_cons, List.filterMap_cons]
      by_cases ht : hasTitle i
      · simp only [typeKeyOf, if_pos ht]
        rw [ih]
        simp [statsStep, ht]
      · simp only [typeKeyOf, if_neg ht]
        rw [ih]
        simp [statsStep, ht]

theorem statsFold_byAuthor (items : List CommitItem) :
    ∀ acc : StatsAcc,
      (items.foldl statsStep acc).byAuthor
        = (items.filterMap authorKeyOf).foldl (fun h x => bumpAuthor x h) acc.byAuthor := by
  induction items with
  | nil => intro acc; rfl
  | cons i items ih =>
      intro acc
      simp only [List.foldl_cons, List.filterMap_cons]
      by_cases ht : hasTitle i
      · simp only [authorKeyOf, if_pos ht]
        rw [ih]
        simp [statsStep, ht]
      · simp only [authorKeyOf, if_neg ht]
        rw [ih]
        simp [statsStep, ht]

theorem statsFold_dateCounts (items : List CommitItem) :
    ∀ acc : StatsAcc,
      (items.foldl statsStep acc).dateCounts
        = (items.filterMap dateKeyOf).foldl (fun h x => bump x h) acc.dateCounts := by
  induction items with
  | nil => intro acc; rfl
  | cons i items ih =>
      intro acc
      simp only [List.foldl_cons, List.filterMap_cons]
      by_cases ht : hasTitle i
      · simp only [dateKeyOf, if_pos ht]
        cases hd : i.date with
        | none =>
            simp only [Option.map_none']
            rw [ih]
            simp [statsStep, ht, hd]
        | some d =>
            simp only [Option.map_some']
            rw [ih]
            simp [statsStep, ht, hd]
      · simp only [dateKeyOf, if_neg ht]
        rw [ih]
        simp [statsStep, ht]

theorem generateStats_byDate_length (items : List CommitItem) :
    (generateStats items).byDate.length = activeDayCount items := by
  show (items.foldl statsStep ⟨[], [], []⟩).dateCounts.length = activeDayCount items
  rw [statsFold_dateCounts]
  exact length_foldl_bump _

theorem generateStats_avg (items : List CommitItem) :
    (generateStats items).averagePerDay =
      if 0 < activeDayCount items
        then .str (toFixed1 items.length (activeDayCount items))
        else .num 0 := by
  have hlen := generateStats_byDate_length items
  show (if (items.foldl statsStep ⟨[], [], []⟩).dateCounts.length > 0
      then JsValue.str (toFixed1 items.length (items.foldl statsStep ⟨[], [], []⟩).dateCounts.length)
      else .num 0) = _
  rw [show (items.foldl statsStep ⟨[], [], []⟩).dateCounts.length = activeDayCount items from hlen]

theorem generateStats_byType (items : List CommitItem) :
    (generateStats items).byType
      = (items.filterMap typeKeyOf).foldl (fun h x => bump x h) [] := by
  show (items.foldl statsStep ⟨[], [], []⟩).byType = _
  rw [statsFold_byType]

theorem generateStats_byAuthor (items : List CommitItem) :
    (generateStats items).byAuthor
      = (items.filterMap authorKeyOf).foldl (fun h x => bumpAuthor x h) [] := by
  show (items.foldl statsStep ⟨[], [], []⟩).byAuthor = _
  rw [statsFold_byAuthor]

theorem generateStats_byDate (items : List CommitItem) :
    (generateStats items).byDate
      = (items.filterMap dateKeyOf).foldl (fun h x => bump x h) [] := by
  show (items.foldl statsStep ⟨[], [], []⟩).dateCounts = _
  rw [statsFold_dateCounts]

/-- Evaluation of the binary64 division model on the near-tie: the
double closest to 23/20 lies just below 1.15, so `(23/20).toFixed(1)`
is `"1.1"`, not the `"1.2"` that exact-rational half-up rounding would
give. -/
theorem toFixed1_near_tie : toFixed1 23 20 = "1.1" := by decide

/-- C2.  `averagePerDay` is the string `total / distinctActiveDays`
rounded to one decimal place — the division rounding to the nearest
binary64 first, then `toFixed` rounding that double — when there is at
least one active day, and the literal number `0` otherwise; three
commits over two distinct days yield the string `"1.5"`, and the empty
input yields the number `0`. -/
theorem c2_averagePerDay_contract :
    (∀ items : List CommitItem,
      (0 < activeDayCount items →
        (generateStats items).averagePerDay
          = .str (toFixed1 (generateStats items).total (activeDayCount items))) ∧
      (activeDayCount items = 0 →
        (generateStats items).averagePerDay = .num 0)) ∧
    (generateStats threeOverTwoDays).averagePerDay = .str "1.5" ∧
    (generateStats []).averagePerDay = .num 0 := by
  refine ⟨fun items => ⟨?_, ?_⟩, ?_, ?_⟩
  · intro hpos
    rw [generateStats_avg, if_pos hpos]
    rfl
  · intro hz
    rw [generateStats_avg, hz]
    simp
  · rfl
  · rfl

/-- C4 counterexample.  A record with a timestamp (and an absent author)
but no title is omitted from both `byDate` and `byAuthor`, against the
claim that every record with a timestamp is counted per-day and every
record with an absent author is counted under `"Unknown"`. -/
theorem c4_counterexample :
    untitledDated.date = some 0 ∧
    untitledDated.author_login = none ∧
    (generateStats [untitledDated]).byDate = [] ∧
    (generateStats [untitledDated]).byAuthor = [] :=
  ⟨rfl, rfl, rfl, rfl⟩

/-- C4 as amended.  Among records with a truthy title: absent-author
records are counted under the literal `"Unknown"`, and every dated record
is counted under its UTC calendar-day key — the per-day histogram holds
exactly the key counts of the loop's stream, the author histogram does so
for every author handle that does not name an inherited
`Object.prototype` member (handles that do hit the prototype chain
instead, see the C10 analysis), and no titled record with a timestamp is
omitted. -/
theorem c4_histograms_amended :
    ∀ items : List CommitItem,
      (∀ a, a ∉ protoProps → getCountA a (generateStats items).byAuthor
        = (items.filterMap authorKeyOf).count a) ∧
      (∀ d, getCount d (generateStats items).byDate
        = (items.filterMap dateKeyOf).count d) ∧
      (∀ i ∈ items, hasTitle i = true → ∀ d, i.date = some d →
        0 < getCount (utcDayKey d) (generateStats items).byDate) ∧
      (∀ i ∈ items, hasTitle i = true → i.author_login = none →
        0 < getCountA "Unknown" (generateStats items).byAuthor) := by
  intro items
  have hA : ∀ a, a ∉ protoProps → getCountA a (generateStats items).byAuthor
      = (items.filterMap authorKeyOf).count a := by
    intro a ha
    rw [generateStats_byAuthor, getCountA_authorFold _ a ha [] (by simp)]
    simp [getCountA]
  have hD : ∀ d, getCount d (generateStats items).byDate
      = (items.filterMap dateKeyOf).count d := by
    intro d
    rw [generateStats_byDate, getCount_foldl]
    simp [getCount]
  refine ⟨hA, hD, ?_, ?_⟩
  · intro i hi ht d hd
    rw [hD]
    apply List.count_pos_iff_mem.mpr
    apply List.mem_filterMap.mpr
    exact ⟨i, hi, by simp [dateKeyOf, ht, hd]⟩
  · intro i hi ht hu
    rw [hA "Unknown" (by decide)]
    apply List.count_pos_iff_mem.mpr
    apply List.mem_filterMap.mpr
    exact ⟨i, hi, by simp [authorKeyOf, ht, authorKey, hu]⟩

/-- C10 counterexample.  A commit whose author handle is `"toString"`
stores, as its `byAuthor` entry, the inherited `Object.prototype.toString`
member coerced to a string with `"1"` appended — not a positive integer,
not a number at all. -/
theorem c10_counterexample :
    (generateStats [⟨some "feat: x", some "toString", some 0⟩]).byAuthor
      = [("toString", JsValue.str (protoString "toString" ++ "1"))] ∧
    (∀ n : Nat, JsValue.str (protoString "toString" ++ "1") ≠ JsValue.num n) :=
  ⟨by decide, fun n h => JsValue.noConfusion h⟩

/-- C10 as amended.  `total` is the input length; every `byType` key is
one of the thirteen labels with a positive count; every `byDate` count is
positive; and in `byAuthor` every key that does not name an
`Object.prototype` member holds a positive count, while keys that do hold
strings (the first increment concatenates onto the inherited member) —
and `__proto__` is never stored at all, its write being discarded by the
inherited accessor. -/
theorem c10_stats_amended :
    ∀ items : List CommitItem,
      (generateStats items).total = items.length ∧
      (∀ p ∈ (generateStats items).byType, p.1 ∈ categoryLabels ∧ 0 < p.2) ∧
      (∀ p ∈ (generateStats items).byDate, 0 < p.2) ∧
      (∀ p ∈ (generateStats items).byAuthor,
        p.1 ≠ "__proto__" ∧
        (p.1 ∉ protoProps → ∃ n, p.2 = JsValue.num n ∧ 0 < n) ∧
        (p.1 ∈ protoProps → ∃ s, p.2 = JsValue.str s ∧ s ≠ "")) := by
  intro items
  refine ⟨rfl, ?_, ?_, ?_⟩
  · intro p hp
    rw [generateStats_byType] at hp
    constructor
    · have hk : p.1 ∈ ((items.filterMap typeKeyOf).foldl (fun h x => bump x h) []).map Prod.fst :=
        List.mem_map_of_mem _ hp
      rw [keys_foldl_mem] at hk
      rcases hk with h | h
      · simp at h
      · rcases List.mem_filterMap.mp h with ⟨i, -, hval⟩
        simp only [typeKeyOf] at hval
        by_cases ht : hasTitle i
        · rw [if_pos ht] at hval
          have hv := Option.some.inj hval
          exact hv ▸ categorize_mem_labels i.title
        · rw [if_neg ht] at hval
          cases hval
    · exact foldl_bump_pos _ [] (by simp) p hp
  · intro p hp
    rw [generateStats_byDate] at hp
    exact foldl_bump_pos _ [] (by simp) p hp
  · intro p hp
    rw [generateStats_byAuthor] at hp
    exact authorFold_inv _ [] (by simp) p hp

theorem digitChar_isDigit {k : Nat} (h : k < 10) :
    (Char.ofNat (48 + k)).isDigit = true := by
  interval_cases k <;> decide

theorem digitChar_toNat {k : Nat} (h : k < 10) :
    (Char.ofNat (48 + k)).toNat = 48 + k := by
  interval_cases k <;> decide

theorem natDigits_ne_nil (n : Nat) : natDigits n ≠ [] := by
  rw [natDigits]
  split_ifs <;> simp

theorem natDigits_isDigit (n : Nat) : ∀ c ∈ natDigits n, c.isDigit = true := by
  induction n using Nat.strong_induction_on with
  | _ n ih =>
      rw [natDigits]
      split_ifs with h
      · intro c hc
        rw [List.mem_singleton] at hc
        exact hc ▸ digitChar_isDigit h
      · intro c hc
        rw [List.mem_append] at hc
        rcases hc with hc | hc
        · exact ih (n / 10) (by omega) c hc
        · rw [List.mem_singleton] at hc
          exact hc ▸ digitChar_isDigit (Nat.mod_lt _ (by omega))

theorem digitsToNat_append_one (l : List Char) (c : Char) :
    digitsToNat (l ++ [c]) = 10 * digitsToNat l + (c.toNat - 48) := by
  unfold digitsToNat
  rw [List.foldl_append]
  rfl

theorem digitsToNat_natDigits (n : Nat) : digitsToNat (natDigits n) = n := by
  induction n using Nat.strong_induction_on with
  | _ n ih =>
      rw [natDigits]
      split_ifs with h
      · show 10 * 0 + ((Char.ofNat (48 + n)).toNat - 48) = n
        rw [digitChar_toNat h]
        omega
      · rw [digitsToNat_append_one, ih (n / 10) (by omega),
          digitChar_toNat (Nat.mod_lt _ (by omega))]
        omega

theorem isDigit_toNat {c : Char} (h : c.isDigit = true) :
    48 ≤ c.toNat ∧ c.toNat ≤ 57 := by
  simp [Char.isDigit] at h
  exact h

theorem jsToLower_of_digit {c : Char} (h : c.isDigit = true) : jsToLower c = c := by
  obtain ⟨h1, h2⟩ := isDigit_toNat h
  unfold jsToLower
  rw [if_neg (by omega), if_neg (by omega)]

theorem isJsWs_of_digit {c : Char} (h : c.isDigit = true) : isJsWs c = false := by
  obtain ⟨h1, h2⟩ := isDigit_toNat h
  simp only [isJsWs, Bool.or_eq_false_iff, decide_eq_false_iff_not,
    Bool.and_eq_false_iff]
  omega

/-- A map that fixes every element of a list fixes the list. -/
theorem map_self_of {α : Type} (f : α → α) (l : List α)
    (h : ∀ c ∈ l, f c = c) : l.map f = l := by
  induction l with
  | nil => rfl
  | cons c cs ih =>
      rw [List.map_cons, h c (List.mem_cons_self _ _),
        ih (fun x hx => h x (List.mem_cons_of_mem _ hx))]

/-- Lists `takeWhile`/`dropWhile` split around a boundary where the predicate
flips. -/
theorem takeWhile_prepend {α : Type} (p : α → Bool) (l1 l2 : List α)
    (h1 : ∀ c ∈ l1, p c = true) (h2 : ∀ c, l2.head? = some c → p c = false) :
    (l1 ++ l2).takeWhile p = l1 ∧ (l1 ++ l2).dropWhile p = l2 := by
  induction l1 with
  | nil =>
      simp only [List.nil_append]
      cases l2 with
      | nil => simp
      | cons c r =>
          have hc := h2 c rfl
          simp [List.takeWhile_cons, List.dropWhile_cons, hc]
  | cons a l1 ih =>
      have ha := h1 a (List.mem_cons_self _ _)
      have ih2 := ih (fun c hc => h1 c (List.mem_cons_of_mem _ hc))
      simp [List.takeWhile_cons, List.dropWhile_cons, ha, ih2.1, ih2.2]

theorem jsTrim_eq_self {l : List Char}
    (hfront : l.dropWhile isJsWs = l)
    (hback : l.reverse.dropWhile isJsWs = l.reverse) :
    jsTrim l = l := by
  unfold jsTrim
  rw [hfront, hback, List.reverse_reverse]

/-- Canonicalizing `⟨digits ++ suffix⟩` is the identity when the suffix
is already lowercase and ends in a non-space character. -/
theorem jsCanon_digits_suffix (N : Nat) (suffix : List Char)
    (hmap : suffix.map jsToLower = suffix)
    (hback : suffix.reverse.dropWhile isJsWs = suffix.reverse)
    (hne : suffix ≠ []) :
    jsCanon ⟨natDigits N ++ suffix⟩ = natDigits N ++ suffix := by
  unfold jsCanon
  have hdata : (⟨natDigits N ++ suffix⟩ : String).data = natDigits N ++ suffix := rfl
  rw [hdata, List.map_append,
    map_self_of _ _ (fun c hc => jsToLower_of_digit (natDigits_isDigit N c hc)), hmap]
  apply jsTrim_eq_self
  · obtain ⟨c, cs, hcs⟩ := List.exists_cons_of_ne_nil (natDigits_ne_nil N)
    have hwc : isJsWs c = false :=
      isJsWs_of_digit (natDigits_isDigit N c (hcs ▸ List.mem_cons_self c cs))
    rw [hcs, List.cons_append, List.dropWhile_cons, if_neg (by simp [hwc])]
  · rw [List.reverse_append]
    have hrne : suffix.reverse ≠ [] := by simpa using hne
    obtain ⟨d, ds, hds⟩ := List.exists_cons_of_ne_nil hrne
    have hdw : isJsWs d = false := by
      rw [hds, List.dropWhile_cons] at hback
      by_cases hw : isJsWs d
      · rw [if_pos hw] at hback
        have hle := (List.dropWhile_sublist (l := ds) (p := isJsWs)).length_le
        rw [hback] at hle
        simp at hle
      · exact Bool.of_not_eq_true hw
    rw [hds, List.cons_append, List.dropWhile_cons, if_neg (by simp [hdw])]

theorem matchAgo_canonical (N : Nat) (u : AgoUnit) (pl : Bool) :
    matchAgo (natDigits N ++ agoSuffix u pl) = some (N, u) := by
  have hhead : ∀ c, (agoSuffix u pl).head? = some c → Char.isDigit c = false := by
    intro c hc
    have hc2 : c = ' ' := (Option.some.inj hc).symm
    rw [hc2]
    decide
  have hsplit := takeWhile_prepend Char.isDigit (natDigits N) (agoSuffix u pl)
    (natDigits_isDigit N) hhead
  unfold matchAgo
  rw [hsplit.1, hsplit.2, if_neg (natDigits_ne_nil N)]
  cases u <;> cases pl <;>
    · show some (digitsToNat (natDigits N), _) = _
      rw [digitsToNat_natDigits]

/-! ### Calendar arithmetic lemmas -/

theorem dayFromYear_succ (y : Int) :
    dayFromYear (y + 1) = dayFromYear y + 365 + inLeapYear y := by
  unfold dayFromYear inLeapYear
  split_ifs with h1 h2 h3 <;> omega

theorem makeDay_day_step (y m d : Int) : makeDay y m d = makeDay y m 1 + (d - 1) := by
  unfold makeDay
  ring

/-- ECMA month normalization: `new Date(y, m, d)` lands in month `m % 12`
of year `y + m / 12`. -/
theorem makeDay_normalize (y m d : Int) :
    makeDay y m d = makeDay (y + m / 12) (m % 12) d := by
  unfold makeDay
  rw [show (m % 12) / 12 = 0 by omega, show (m % 12) % 12 = m % 12 by omega,
    add_zero]

/-- The first of the next month is `daysInMonth` days after the first of
this month. -/
theorem makeDay_month_step (y m : Int) (h0 : 0 ≤ m) (h1 : m < 12) :
    makeDay y (m + 1) 1 = makeDay y m 1 + daysInMonth y m := by
  interval_cases m <;>
    simp only [makeDay, monthStart, daysInMonth, inLeapYear] <;>
    norm_num <;>
    first
      | (split_ifs <;> omega)
      | (rw [dayFromYear_succ]; unfold inLeapYear; split_ifs <;> omega)

/-- The parsed form of a canonical `"N unit[s] ago"` string: each unit
follows its `switch` branch of `parseRelativeDate`. -/
theorem parseRelativeDate_ago (ctx : NowCtx) (N : Nat) (u : AgoUnit) (pl : Bool) :
    parseRelativeDate ctx ⟨natDigits N ++ agoSuffix u pl⟩ =
      some (match u with
        | .day => timeClip (ctx.time - (N : Int) * (24 * 60 * 60 * 1000))
        | .week => timeClip (ctx.time - (N : Int) * (7 * 24 * 60 * 60 * 1000))
        | .month => mkDate ctx ctx.year (ctx.month - (N : Int)) ctx.day
        | .year => mkDate ctx (ctx.year - (N : Int)) ctx.month ctx.day) := by
  have hcanon : jsCanon ⟨natDigits N ++ agoSuffix u pl⟩ = natDigits N ++ agoSuffix u pl := by
    apply jsCanon_digits_suffix
    · cases u <;> cases pl <;> decide
    · cases u <;> cases pl <;> decide
    · cases u <;> cases pl <;> decide
  have hhead : ∀ w : List Char, natDigits N ++ agoSuffix u pl ≠ 'y' :: w ∧
      natDigits N ++ agoSuffix u pl ≠ 't' :: w := by
    intro w
    obtain ⟨c, cs, hcs⟩ := List.exists_cons_of_ne_nil (natDigits_ne_nil N)
    have hcd : c.isDigit = true := natDigits_isDigit N c (hcs ▸ List.mem_cons_self c cs)
    rw [hcs, List.cons_append]
    constructor <;>
      · intro heq
        have hc := (List.cons.injEq _ _ _ _).mp heq |>.1
        rw [hc] at hcd
        exact absurd hcd (by decide)
  unfold parseRelativeDate
  rw [hcanon, if_neg (by
      intro heq
      exact (hhead _).2 (by simpa using heq)),
    if_neg (by
      intro heq
      exact (hhead _).1 (by simpa using heq)),
    matchAgo_canonical]
  cases u <;> rfl

/-- C3 as amended.  `"today"` constructs local midnight of the current
date and `"yesterday"` the previous date's midnight: whenever today's
instant is representable, yesterday's is exactly 86400000 ms earlier (or
falls off the representable range), so today is never before yesterday;
under a coherent clock whose year is outside the constructor's
two-digit range 0-99, a representable `"today"` bounds `now` from below,
one day wide.  For every non-negative `N` in decimal, `"N day(s) ago"`
is `now` minus exactly `N`·86400 seconds and `"N week(s) ago"` is `now`
minus exactly `7N`·86400 seconds whenever that instant is within
±8,640,000,000,000,000 ms of the epoch; beyond that range `new Date`
clips the subtraction to Invalid Date. -/
theorem c3_relative_amended :
    ∀ (ctx : NowCtx) (N : Nat),
      parseRelativeDate ctx "today" = some (mkDate ctx ctx.year ctx.month ctx.day) ∧
      parseRelativeDate ctx "yesterday"
        = some (mkDate ctx ctx.year ctx.month (ctx.day - 1)) ∧
      (∀ t, mkDate ctx ctx.year ctx.month ctx.day = .valid t →
        mkDate ctx ctx.year ctx.month (ctx.day - 1) = .valid (t - 86400000) ∨
          mkDate ctx ctx.year ctx.month (ctx.day - 1) = .invalid) ∧
      (ctx.Coherent → ¬ (0 ≤ ctx.year ∧ ctx.year ≤ 99) →
        ∀ t, mkDate ctx ctx.year ctx.month ctx.day = .valid t →
          t ≤ ctx.time ∧ ctx.time < t + 86400000) ∧
      parseRelativeDate ctx ⟨natDigits N ++ " days ago".data⟩
        = some (timeClip (ctx.time - (N : Int) * 86400000)) ∧
      parseRelativeDate ctx ⟨natDigits N ++ " day ago".data⟩
        = some (timeClip (ctx.time - (N : Int) * 86400000)) ∧
      parseRelativeDate ctx ⟨natDigits N ++ " weeks ago".data⟩
        = some (timeClip (ctx.time - 7 * (N : Int) * 86400000)) ∧
      parseRelativeDate ctx ⟨natDigits N ++ " week ago".data⟩
        = some (timeClip (ctx.time - 7 * (N : Int) * 86400000)) ∧
      ((ctx.time - (N : Int) * 86400000).natAbs ≤ 8640000000000000 →
        timeClip (ctx.time - (N : Int) * 86400000)
          = .valid (ctx.time - (N : Int) * 86400000)) ∧
      (8640000000000000 < (ctx.time - 7 * (N : Int) * 86400000).natAbs →
        timeClip (ctx.time - 7 * (N : Int) * 86400000) = .invalid) := by
  intro ctx N
  refine ⟨?_, ?_, ?_, ?_, ?_, ?_, ?_, ?_, ?_, ?_⟩
  · unfold parseRelativeDate
    rw [show jsCanon "today" = "today".data from by decide, if_pos rfl]
  · unfold parseRelativeDate
    rw [show jsCanon "yesterday" = "yesterday".data from by decide,
      if_neg (by decide), if_pos rfl]
  · intro t ht
    have hstep : rawDate ctx ctx.year ctx.month (ctx.day - 1)
        = rawDate ctx ctx.year ctx.month ctx.day - 86400000 := by
      unfold rawDate makeDay
      ring
    unfold mkDate timeClip at ht ⊢
    split_ifs at ht with hin
    · have hraw : rawDate ctx ctx.year ctx.month ctx.day = t :=
        JsDate.valid.injEq .. |>.mp ht
    -- and step down one day, clipping as the range demands
      rw [hstep, hraw]
      split_ifs with hin2
      · exact Or.inl rfl
      · exact Or.inr rfl
  · rintro ⟨hmk, -⟩ hyleg t ht
    have hly : legacyYear ctx.year = ctx.year := by
      unfold legacyYear
      rw [if_neg hyleg]
    unfold mkDate timeClip rawDate at ht
    rw [hly, hmk] at ht
    split_ifs at ht with hin
    · have hraw := JsDate.valid.injEq .. |>.mp ht
      have hdm := Int.ediv_add_emod (ctx.time + ctx.tz) 86400000
      have hr1 : 0 ≤ (ctx.time + ctx.tz) % 86400000 :=
        Int.emod_nonneg _ (by norm_num)
      have hr2 : (ctx.time + ctx.tz) % 86400000 < 86400000 :=
        Int.emod_lt_of_pos _ (by norm_num)
      omega
  · rw [show (" days ago".data) = agoSuffix AgoUnit.day true from by decide,
      parseRelativeDate_ago]
    norm_num
  · rw [show (" day ago".data) = agoSuffix AgoUnit.day false from by decide,
      parseRelativeDate_ago]
    norm_num
  · rw [show (" weeks ago".data) = agoSuffix AgoUnit.week true from by decide,
      parseRelativeDate_ago]
    norm_num
    ring_nf
  · rw [show (" week ago".data) = agoSuffix AgoUnit.week false from by decide,
      parseRelativeDate_ago]
    norm_num
    ring_nf
  · intro h
    unfold timeClip
    rw [if_pos h]
  · intro h
    unfold timeClip
    rw [if_neg (by omega)]

/-- C3 counterexample.  With the unit-test clock, `"14300000 weeks ago"`
does not evaluate to `now` minus exactly 7·14300000·86400 seconds: that
instant lies beyond −8,640,000,000,000,000 ms from the epoch, so
`new Date` clips it to Invalid Date. -/
theorem c3_counterexample :
    parseRelativeDate testCtx "14300000 weeks ago" = some JsDate.invalid ∧
    some JsDate.invalid
      ≠ some (JsDate.valid
          (testCtx.time - 14300000 * (7 * 24 * 60 * 60 * 1000))) := by
  exact ⟨by decide, by decide⟩

/-- C7 counterexample.  From 2025-03-31, `"1 month ago"` does not fall in
February 2025 (the month exactly one before) — JS `Date` normalization
overflows the 31st into March: the result is the valid instant of local
midnight 2025-03-03, at or past March 1 and outside February's instant
span. -/
theorem c7_counterexample :
    parseRelativeDate marchCtx "1 month ago" = some (mkDate marchCtx 2025 1 31) ∧
    mkDate marchCtx 2025 1 31 = JsDate.valid (rawDate marchCtx 2025 1 31) ∧
    ¬ (rawDate marchCtx 2025 1 1 ≤ rawDate marchCtx 2025 1 31 ∧
        rawDate marchCtx 2025 1 31 < rawDate marchCtx 2025 2 1) ∧
    rawDate marchCtx 2025 1 31 = rawDate marchCtx 2025 2 3 := by
  refine ⟨by decide, by decide, ?_, by decide⟩
  rintro ⟨-, hlt⟩
  revert hlt
  decide

/-- C7 as amended.  `"N months ago"` and `"N years ago"` hand
`getFullYear() [- N]` and `getMonth() [- N]` to the `Date` constructor,
which maps a year argument 0-99 to 1900 + year (so `"2000 years ago"`
from 2025 lands in 1925) and clips unrepresentable instants to Invalid
Date; the month index normalizes by floored division, keeping the
day-of-month number: when that day exists in the target month the result
falls inside the target month (at its `day`-th date); when it does not,
normalization overflows the excess days past the target month (the day
number lands at or after the first of the following month) instead of
clamping. -/
theorem c7_month_year_amended :
    ∀ (ctx : NowCtx) (N : Nat),
      parseRelativeDate ctx ⟨natDigits N ++ " months ago".data⟩
        = some (mkDate ctx ctx.year (ctx.month - (N : Int)) ctx.day) ∧
      parseRelativeDate ctx ⟨natDigits N ++ " years ago".data⟩
        = some (mkDate ctx (ctx.year - (N : Int)) ctx.month ctx.day) ∧
      (¬ (0 ≤ ctx.year ∧ ctx.year ≤ 99) →
        mkDate ctx ctx.year (ctx.month - (N : Int)) ctx.day
          = timeClip (makeDay ctx.year (ctx.month - (N : Int)) ctx.day * 86400000
              - ctx.tz)) ∧
      ((0 ≤ ctx.year - (N : Int) ∧ ctx.year - (N : Int) ≤ 99) →
        mkDate ctx (ctx.year - (N : Int)) ctx.month ctx.day
          = timeClip (makeDay (1900 + (ctx.year - (N : Int))) ctx.month ctx.day
              * 86400000 - ctx.tz)) ∧
      (¬ (0 ≤ ctx.year - (N : Int) ∧ ctx.year - (N : Int) ≤ 99) →
        mkDate ctx (ctx.year - (N : Int)) ctx.month ctx.day
          = timeClip (makeDay (ctx.year - (N : Int)) ctx.month ctx.day * 86400000
              - ctx.tz)) ∧
      makeDay ctx.year (ctx.month - (N : Int)) ctx.day
        = makeDay (targetYearM ctx N) (targetMonthM ctx N) ctx.day ∧
      (1 ≤ ctx.day →
        (ctx.day ≤ daysInMonth (targetYearM ctx N) (targetMonthM ctx N) →
          makeDay (targetYearM ctx N) (targetMonthM ctx N) 1
              ≤ makeDay ctx.year (ctx.month - (N : Int)) ctx.day ∧
            makeDay ctx.year (ctx.month - (N : Int)) ctx.day
              < makeDay (targetYearM ctx N) (targetMonthM ctx N + 1) 1) ∧
        (daysInMonth (targetYearM ctx N) (targetMonthM ctx N) < ctx.day →
          makeDay (targetYearM ctx N) (targetMonthM ctx N + 1) 1
            ≤ makeDay ctx.year (ctx.month - (N : Int)) ctx.day)) ∧
      (0 ≤ ctx.month → ctx.month < 12 → 1 ≤ ctx.day →
        (ctx.day ≤ daysInMonth (ctx.year - (N : Int)) ctx.month →
          makeDay (ctx.year - (N : Int)) ctx.month 1
              ≤ makeDay (ctx.year - (N : Int)) ctx.month ctx.day ∧
            makeDay (ctx.year - (N : Int)) ctx.month ctx.day
              < makeDay (ctx.year - (N : Int)) (ctx.month + 1) 1) ∧
        (daysInMonth (ctx.year - (N : Int)) ctx.month < ctx.day →
          makeDay (ctx.year - (N : Int)) (ctx.month + 1) 1
            ≤ makeDay (ctx.year - (N : Int)) ctx.month ctx.day)) := by
  intro ctx N
  have hnorm : makeDay ctx.year (ctx.month - (N : Int)) ctx.day
      = makeDay (targetYearM ctx N) (targetMonthM ctx N) ctx.day :=
    makeDay_normalize _ _ _
  have hTMl : 0 ≤ targetMonthM ctx N := by
    unfold targetMonthM
    omega
  have hTMu : targetMonthM ctx N < 12 := by
    unfold targetMonthM
    omega
  have hstepM := makeDay_month_step (targetYearM ctx N) (targetMonthM ctx N) hTMl hTMu
  have hdayM := makeDay_day_step (targetYearM ctx N) (targetMonthM ctx N) ctx.day
  refine ⟨?_, ?_, ?_, ?_, ?_, hnorm, ?_, ?_⟩
  · rw [show (" months ago".data) = agoSuffix AgoUnit.month true from by decide]
    exact parseRelativeDate_ago ctx N AgoUnit.month true
  · rw [show (" years ago".data) = agoSuffix AgoUnit.year true from by decide]
    exact parseRelativeDate_ago ctx N AgoUnit.year true
  · intro h
    unfold mkDate rawDate legacyYear
    rw [if_neg h]
  · intro h
    unfold mkDate rawDate legacyYear
    rw [if_pos h]
  · intro h
    unfold mkDate rawDate legacyYear
    rw [if_neg h]
  · intro hd1
    constructor
    · intro hdle
      rw [hnorm, hdayM]
      refine ⟨by omega, ?_⟩
      rw [hstepM]
      omega
    · intro hover
      rw [hnorm, hdayM, hstepM]
      omega
  · intro hm0 hm1 hd1
    have hstepY := makeDay_month_step (ctx.year - (N : Int)) ctx.month hm0 hm1
    have hdayY := makeDay_day_step (ctx.year - (N : Int)) ctx.month ctx.day
    constructor
    · intro hdle
      rw [hdayY]
      refine ⟨by omega, ?_⟩
      rw [hstepY]
      omega
    · intro hover
      rw [hdayY, hstepY]
      omega

theorem eatWs1_sound {l r : List Char} (h : eatWs1 l = some r) :
    ∃ w, w ≠ [] ∧ (∀ c ∈ w, isJsWs c = true) ∧ l = w ++ r := by
  cases l with
  | nil => cases h
  | cons c rest =>
      rw [show eatWs1 (c :: rest)
          = if isJsWs c then some (rest.dropWhile isJsWs) else none from rfl] at h
      split_ifs at h with hw
      · have hr := Option.some.inj h
        refine ⟨c :: rest.takeWhile isJsWs, by simp, ?_, ?_⟩
        · intro x hx
          rcases List.mem_cons.mp hx with hx | hx
          · exact hx ▸ hw
          · exact List.mem_takeWhile_imp hx
        · rw [← hr, List.cons_append, List.takeWhile_append_dropWhile]

theorem drop_len_append (k t : List Char) : (k ++ t).drop k.length = t :=
  List.drop_left k t

theorem eatUnit_sound {l : List Char} {u : AgoUnit} {r : List Char}
    (h : eatUnit l = some (u, r)) : l = unitWord u ++ r := by
  unfold eatUnit at h
  split_ifs at h with h1 h2 h3 h4
  · obtain ⟨t, ht⟩ := List.isPrefixOf_iff_prefix.mp h1
    have hp := Option.some.inj h
    obtain ⟨hu, hr⟩ := Prod.mk.injEq .. |>.mp hp
    subst hu
    rw [← hr, ← ht, unitWord]
    exact congrArg _ (drop_len_append "day".data t).symm
  · obtain ⟨t, ht⟩ := List.isPrefixOf_iff_prefix.mp h2
    have hp := Option.some.inj h
    obtain ⟨hu, hr⟩ := Prod.mk.injEq .. |>.mp hp
    subst hu
    rw [← hr, ← ht, unitWord]
    exact congrArg _ (drop_len_append "week".data t).symm
  · obtain ⟨t, ht⟩ := List.isPrefixOf_iff_prefix.mp h3
    have hp := Option.some.inj h
    obtain ⟨hu, hr⟩ := Prod.mk.injEq .. |>.mp hp
    subst hu
    rw [← hr, ← ht, unitWord]
    exact congrArg _ (drop_len_append "month".data t).symm
  · obtain ⟨t, ht⟩ := List.isPrefixOf_iff_prefix.mp h4
    have hp := Option.some.inj h
    obtain ⟨hu, hr⟩ := Prod.mk.injEq .. |>.mp hp
    subst hu
    rw [← hr, ← ht, unitWord]
    exact congrArg _ (drop_len_append "year".data t).symm

theorem eatPlural_shape (l : List Char) :
    ∃ pl : Bool, l = (if pl then ['s'] else []) ++ eatPlural l := by
  unfold eatPlural
  cases l with
  | nil => exact ⟨false, rfl⟩
  | cons c r =>
      by_cases hc : c = 's'
      · subst hc
        exact ⟨true, rfl⟩
      · refine ⟨false, ?_⟩
        simp [hc]

theorem matchAgo_sound {l : List Char} {n : Nat} {u : AgoUnit}
    (h : matchAgo l = some (n, u)) :
    ∃ (ds w1 w2 : List Char) (pl : Bool),
      ds ≠ [] ∧ (∀ c ∈ ds, c.isDigit = true) ∧
      w1 ≠ [] ∧ (∀ c ∈ w1, isJsWs c = true) ∧
      w2 ≠ [] ∧ (∀ c ∈ w2, isJsWs c = true) ∧
      l = ds ++ w1 ++ unitWord u ++ (if pl then ['s'] else []) ++ w2 ++ "ago".data := by
  unfold matchAgo at h
  split_ifs at h with hd
  split at h
  · exact Option.noConfusion h
  · rename_i r1 h1
    split at h
    · exact Option.noConfusion h
    · rename_i u' r2 h2
      split at h
      · exact Option.noConfusion h
      · rename_i r4 h3
        split_ifs at h with hago
        have hnu := Option.some.inj h
        have hu' : u' = u := (Prod.mk.injEq .. |>.mp hnu).2
        obtain ⟨w1, hw1ne, hw1, hw1eq⟩ := eatWs1_sound h1
        have hunit := eatUnit_sound h2
        obtain ⟨pl, hpl⟩ := eatPlural_shape r2
        obtain ⟨w2, hw2ne, hw2, hw2eq⟩ := eatWs1_sound h3
        refine ⟨l.takeWhile Char.isDigit, w1, w2, pl, hd,
          (fun c hc => List.mem_takeWhile_imp hc), hw1ne, hw1, hw2ne, hw2, ?_⟩
        conv_lhs => rw [← List.takeWhile_append_dropWhile (p := Char.isDigit) (l := l)]
        rw [hw1eq, hunit, hu', hpl, hw2eq, hago]
        simp only [List.append_assoc]

theorem parseRelativeDate_none_of_not_shape (ctx : NowCtx) (s : String)
    (h : ¬ RelShape (jsCanon s)) : parseRelativeDate ctx s = none := by
  unfold parseRelativeDate
  by_cases h1 : jsCanon s = "today".data
  · exact absurd (Or.inl h1) h
  by_cases h2 : jsCanon s = "yesterday".data
  · exact absurd (Or.inr (Or.inl h2)) h
  rw [if_neg h1, if_neg h2]
  cases hm : matchAgo (jsCanon s) with
  | none => rfl
  | some p =>
      obtain ⟨n, u⟩ := p
      exfalso
      obtain ⟨ds, w1, w2, pl, a1, a2, a3, a4, a5, a6, a7⟩ := matchAgo_sound hm
      exact h (Or.inr (Or.inr ⟨ds, w1, w2, u, pl, a1, a2, a3, a4, a5, a6, a7⟩))

/-- C6 counterexample.  The empty string is a string input that matches
no relative pattern and no absolute parse, yet `validateDate` rejects it
with the falsy-argument guard error (`--name must be a valid date
string`), not the `InvalidDate` error (`--name is not a valid date`). -/
theorem c6_counterexample :
    validateDate testCtx (fun _ => none) (some "") = .error .missingDate ∧
    (Except.error DateError.missingDate : Except DateError Int)
      ≠ .error .invalidDate := by
  refine ⟨rfl, ?_⟩
  intro h
  exact absurd (Except.error.inj h) (by decide)

/-- C6 as amended.  Every canonicalized input outside the three relative
patterns parses to `null`; every NON-EMPTY such input that also fails the
absolute parse makes `validateDate` fail with `InvalidDate` (the empty
string is instead rejected by the falsy-argument guard); and resolution
always returns either one instant or one error, never a partial result. -/
theorem c6_invalid_date_amended :
    ∀ (ctx : NowCtx) (abs : String → Option (Int × Int)) (s : String),
      (¬ RelShape (jsCanon s) → parseRelativeDate ctx s = none) ∧
      (s ≠ "" → parseRelativeDate ctx s = none → abs s = none →
        validateDate ctx abs (some s) = .error .invalidDate) ∧
      ((∃ t, validateDate ctx abs (some s) = .ok t) ∨
        (∃ e, validateDate ctx abs (some s) = .error e)) := by
  intro ctx abs s
  refine ⟨parseRelativeDate_none_of_not_shape ctx s, ?_, ?_⟩
  · intro hs hrel habs
    simp only [validateDate]
    rw [if_neg hs, hrel, habs]
  · cases hv : validateDate ctx abs (some s) with
    | ok t => exact Or.inl ⟨t, rfl⟩
    | error e => exact Or.inr ⟨e, rfl⟩

/-- C8.  Whenever the absolute parse yields a date whose local year is
more than 50 away from the current year (and the input is a genuine
absolute expression: non-empty, not a relative pattern), `validateDate`
fails with `UnreasonableDate` — distinct from `InvalidDate` — and never
returns an instant. -/
theorem c8_unreasonable_date :
    ∀ (ctx : NowCtx) (abs : String → Option (Int × Int)) (s : String) (t y : Int),
      s ≠ "" → parseRelativeDate ctx s = none → abs s = some (t, y) →
      50 < (ctx.year - y).natAbs →
      validateDate ctx abs (some s) = .error .unreasonableDate ∧
      validateDate ctx abs (some s) ≠ .error .invalidDate ∧
      ∀ t', validateDate ctx abs (some s) ≠ .ok t' := by
  intro ctx abs s t y hs hrel habs hfar
  have hval : validateDate ctx abs (some s) = .error .unreasonableDate := by
    simp only [validateDate]
    rw [if_neg hs, hrel, habs]
    show (if 50 < (ctx.year - y).natAbs
        then Except.error DateError.unreasonableDate
        else Except.ok (JsDate.valid t))
      = Except.error DateError.unreasonableDate
    rw [if_pos hfar]
  refine ⟨hval, ?_, ?_⟩
  · rw [hval]
    intro h
    exact absurd (Except.error.inj h) (by decide)
  · intro t' h
    rw [hval] at h
    exact Except.noConfusion h

/-- Witness for C8: the year 1900 is 125 years from the test clock's
2025, so a successfully parsed `1900-01-01` is rejected as
unreasonable. -/
theorem c8_unreasonable_date_witness :
    validateDate testCtx (fun _ => some (-2208988800000, 1900)) (some "1900-01-01")
      = .error .unreasonableDate :=
  (c8_unreasonable_date testCtx (fun _ => some (-2208988800000, 1900)) "1900-01-01"
    (-2208988800000) 1900 (by decide) (by decide) rfl (by decide)).1

theorem matchNextAt_some {l u : List Char} (h : matchNextAt l = some u) :
    ∃ ws post, u ≠ [] ∧ ('>' ∉ u) ∧ (∀ c ∈ ws, isJsWs c = true) ∧
      l = '<' :: (u ++ '>' :: ';' :: (ws ++ relNextTag ++ post)) := by
  cases l with
  | nil => cases h
  | cons c rest =>
      simp only [matchNextAt] at h
      split_ifs at h with hlt hne
      split at h
      · rename_i r2 heq
        split_ifs at h with htag
        have hu := Option.some.inj h
        obtain ⟨post, hpost⟩ := List.isPrefixOf_iff_prefix.mp htag
        refine ⟨r2.takeWhile isJsWs, post, ?_, ?_, ?_, ?_⟩
        · rw [← hu]
          exact hne
        · rw [← hu]
          intro hmem
          have := List.mem_takeWhile_imp hmem
          simp at this
        · intro x hx
          exact List.mem_takeWhile_imp hx
        · subst hlt
          rw [← hu]
          have hr2 : r2 = r2.takeWhile isJsWs ++ relNextTag ++ post := by
            rw [List.append_assoc, hpost]
            exact (List.takeWhile_append_dropWhile (p := isJsWs) (l := r2)).symm
          have hrest : rest
              = rest.takeWhile (fun x => !(x == '>')) ++ ('>' :: ';' :: r2) := by
            conv_lhs =>
              rw [← List.takeWhile_append_dropWhile
                (p := fun x => !(x == '>')) (l := rest), heq]
          conv_lhs => rw [hrest]
          rw [← hr2]
      · exact Option.noConfusion h

theorem findNext_some {l u : List Char} (h : findNext l = some u) :
    HasNextEntry l ∧ u ≠ [] ∧ ('>' ∉ u) ∧
      ∃ pre ws post, (∀ c ∈ ws, isJsWs c = true) ∧
        l = pre ++ '<' :: (u ++ '>' :: ';' :: (ws ++ relNextTag ++ post)) := by
  induction l with
  | nil => cases h
  | cons c rest ih =>
      unfold findNext at h
      cases hm : matchNextAt (c :: rest) with
      | some u' =>
          rw [hm] at h
          have huu : u' = u := Option.some.inj h
          obtain ⟨ws, post, h1, h2, h3, h4⟩ := matchNextAt_some (huu ▸ hm)
          exact ⟨⟨[], u, ws, post, h1, h2, h3, by simpa using h4⟩, h1, h2,
            ⟨[], ws, post, h3, by simpa using h4⟩⟩
      | none =>
          rw [hm] at h
          obtain ⟨⟨pre, url, ws, post, b1, b2, b3, b4⟩, g1, g2, pre2, ws2, post2, g3, g4⟩ := ih h
          exact ⟨⟨c :: pre, url, ws, post, b1, b2, b3, by rw [List.cons_append, b4]⟩, g1, g2,
            ⟨c :: pre2, ws2, post2, g3, by rw [List.cons_append, g4]⟩⟩

theorem matchNextAt_of_shape (url ws post : List Char) (hu : url ≠ [])
    (hgt : '>' ∉ url) (hws : ∀ c ∈ ws, isJsWs c = true) :
    matchNextAt ('<' :: (url ++ '>' :: ';' :: (ws ++ relNextTag ++ post)))
      = some url := by
  have hsplit := takeWhile_prepend (fun x => !(x == '>')) url
    ('>' :: ';' :: (ws ++ relNextTag ++ post))
    (fun c hc => by
      simp only [Bool.not_eq_true', beq_eq_false_iff_ne, ne_eq]
      intro hcc
      exact hgt (hcc ▸ hc))
    (fun c hc => by
      have hcg : c = '>' := (Option.some.inj hc).symm
      simp [hcg])
  have hws2 := takeWhile_prepend isJsWs ws (relNextTag ++ post) hws
    (fun c hc => by
      have hcr : c = 'r' := by
        have : (relNextTag ++ post).head? = some 'r' := rfl
        rw [this] at hc
        exact (Option.some.inj hc).symm
      simp [hcr, isJsWs])
  simp only [matchNextAt]
  rw [if_pos trivial, hsplit.1, if_neg hu, hsplit.2]
  show (if relNextTag.isPrefixOf
        (((ws ++ relNextTag ++ post)).dropWhile isJsWs)
      then some url else none) = some url
  rw [List.append_assoc, hws2.2,
    if_pos ( List.isPrefixOf_iff_prefix.mpr (List.prefix_append _ _))]

theorem findNext_isSome_of_shape {l : List Char} (h : HasNextEntry l) :
    (findNext l).isSome = true := by
  obtain ⟨pre, url, ws, post, h1, h2, h3, rfl⟩ := h
  induction pre with
  | nil =>
      rw [List.nil_append]
      simp only [findNext, matchNextAt_of_shape url ws post h1 h2 h3]
      rfl
  | cons c pre ih =>
      rw [List.cons_append]
      cases hm : matchNextAt
          (c :: (pre ++ '<' :: (url ++ '>' :: ';' :: (ws ++ relNextTag ++ post)))) with
      | some u =>
          simp only [findNext]
          rw [hm]
          rfl
      | none =>
          simp only [findNext, hm]
          exact ih

/-- C9.  The Link-header extraction returns a URL exactly when a
well-formed `rel="next"` entry is present (so `rel="last"` alone yields
none); any returned URL is the capture of such an entry (non-empty,
`>`-free); on the suite's header carrying both `next` and `last` it
returns the `next` URL, and with two `next` entries it returns the first
(leftmost match). -/
theorem c9_parseNextLink_contract :
    (∀ h : String, (parseNextLink h).isSome = true ↔ HasNextEntry h.data) ∧
    (∀ (h u : String), parseNextLink h = some u →
      ∃ pre ws post, u.data ≠ [] ∧ ('>' ∉ u.data) ∧ (∀ c ∈ ws, isJsWs c = true) ∧
        h.data = pre ++ '<' :: (u.data ++ '>' :: ';' :: (ws ++ relNextTag ++ post))) ∧
    parseNextLink "<https://api.github.com/repos/test/test/commits?page=2>; rel=\"next\", <https://api.github.com/repos/test/test/commits?page=5>; rel=\"last\""
      = some "https://api.github.com/repos/test/test/commits?page=2" ∧
    parseNextLink "<https://api.github.com/repos/test/test/commits?page=5>; rel=\"last\""
      = none ∧
    parseNextLink "<https://a/1>; rel=\"next\", <https://a/2>; rel=\"next\""
      = some "https://a/1" := by
  refine ⟨?_, ?_, by rfl, by rfl, by rfl⟩
  · intro h
    constructor
    · intro hs
      unfold parseNextLink at hs
      cases hf : findNext h.data with
      | none => rw [hf] at hs; cases hs
      | some l => exact (findNext_some hf).1
    · intro hshape
      unfold parseNextLink
      have hsome := findNext_isSome_of_shape hshape
      cases hf : findNext h.data with
      | none => rw [hf] at hsome; cases hsome
      | some l => rfl
  · intro h u hu
    unfold parseNextLink at hu
    cases hf : findNext h.data with
    | none => rw [hf] at hu; cases hu
    | some l =>
        rw [hf] at hu
        have hl : (⟨l⟩ : String) = u := Option.some.inj hu
        have hdata : u.data = l := by rw [← hl]
        obtain ⟨-, g1, g2, pre, ws, post, g3, g4⟩ := findNext_some hf
        exact ⟨pre, ws, post, hdata ▸ g1, hdata ▸ g2, g3, by rw [hdata]; exact g4⟩
